import Mathlib

/-!
Shallow embedding of the nlutestframework orchestration core
(`nlutestframework` Python package) and proofs about it.

Python `dict`s are embedded as association lists that preserve insertion
order (matching CPython's guaranteed dict iteration order); Python `float`s
are embedded as `ℚ` (all the properties proved here are exact order and
arithmetic facts); raising an exception is embedded as `Except.error`.
-/

/-- First-match lookup in an association list, the embedding of `d[k]` /
`d.get(k, None)` for a Python dict `d` represented as an insertion-ordered
association list. -/
def lookupA {α β : Type _} [DecidableEq α] : List (α × β) → α → Option β
  | [], _ => none
  | (k, v) :: rest, k2 => if k = k2 then some v else lookupA rest k2

/-- In-place update of an association list key (or append of a fresh key at
the end), the embedding of `d[k] = f(d.get(k))` for a Python dict. -/
def updateA {α β : Type _} [DecidableEq α] (m : List (α × β)) (k : α)
    (f : Option β → β) : List (α × β) :=
  match m with
  | [] => [(k, f none)]
  | (k2, v) :: rest =>
    if k2 = k then (k, f (some v)) :: rest else (k2, v) :: updateA rest k f

/-- The mean `sum(l) / len(l)` as written inline in the Python source
(population mean). -/
def meanQ (l : List ℚ) : ℚ := l.sum / l.length

/-- The population variance `sum((x - mean)^2 for x in l) / len(l)` as
written inline in the Python source. -/
def varQ (l : List ℚ) : ℚ :=
  (l.map (fun x => (x - meanQ l) ^ 2)).sum / l.length

section IntentRating

/-- The intent label type `Intent = Optional[str]` from `types.py`;
`none` is the None-intent. -/
abbrev Intent := Option String

/-- Embedding of the `NLUIntentRating` class of `nlu_intent_rating.py`:
a sentence together with its intent/confidence pairs, kept sorted by
descending confidence. -/
structure NLUIntentRating where
  sentence : String
  sorted_intents : List (Intent × ℚ)
deriving DecidableEq, Repr

/-- One step of the stable descending-by-confidence insertion used to embed
Python's stable `sorted(rated_intents, key=lambda x: x[1], reverse=True)`:
a new element goes after every already-placed element of greater or equal
confidence. -/
def insertDesc (p : Intent × ℚ) : List (Intent × ℚ) → List (Intent × ℚ)
  | [] => [p]
  | q :: rest => if p.2 ≤ q.2 then q :: insertDesc p rest else p :: q :: rest

/-- Stable descending sort by confidence (left-to-right insertion keeps the
original relative order of equal-confidence entries, as Python's stable
`sorted` with `reverse=True` does). -/
def sortDesc (l : List (Intent × ℚ)) : List (Intent × ℚ) :=
  l.foldl (fun acc p => insertDesc p acc) []

/-- Embedding of the `NLUIntentRating.__init__` constructor: store the
sentence and the confidence-sorted intent list. -/
def NLUIntentRating.mk2 (sentence : String) (rated_intents : List (Intent × ℚ)) :
    NLUIntentRating :=
  ⟨sentence, sortDesc rated_intents⟩

/-- Embedding of the `detected_intent` property: the intent of the first
(highest-confidence) entry. Python raises `IndexError` on an empty rating;
that case is embedded as `none` of the outer `Option`. -/
def NLUIntentRating.detectedIntent (r : NLUIntentRating) : Option Intent :=
  r.sorted_intents.head?.map Prod.fst

/-- Embedding of `NLUIntentRating.noneIfBelow`: if the top confidence is
less than or equal to the threshold, prepend `(None, 1.0)`. Python raises
`IndexError` on an empty rating; that case is embedded as the identity
(every claim below concerns non-empty ratings only). -/
def NLUIntentRating.noneIfBelow (r : NLUIntentRating) (threshold : ℚ) :
    NLUIntentRating :=
  match r.sorted_intents with
  | [] => r
  | p :: _ =>
    if p.2 ≤ threshold then
      ⟨r.sentence, (none, 1) :: r.sorted_intents⟩
    else r

theorem noneIfBelow_cons (s : String) (i : Intent) (c : ℚ)
    (rest : List (Intent × ℚ)) (t : ℚ) :
    NLUIntentRating.noneIfBelow ⟨s, (i, c) :: rest⟩ t
      = if c ≤ t then ⟨s, (none, 1) :: (i, c) :: rest⟩ else ⟨s, (i, c) :: rest⟩ := by
  rfl

end IntentRating

/-- Claim C6: for a non-empty rating, `noneIfBelow t` prepends `(None, 1.0)`
precisely when the top confidence is less than or equal to `t` (boundary
inclusive), making the None-intent the detected intent, and leaves the
rating completely unchanged when the top confidence is strictly greater
than `t`; in particular `NLUIntentRating("x", [("A", 0.2), ("B", 0.9)])`
has detected intent `"B"`, and after `noneIfBelow(0.9)` its detected
intent is the None-intent. -/
theorem c6_noneIfBelow_boundary :
    (∀ (r : NLUIntentRating) (t : ℚ) (i : Intent) (c : ℚ)
        (rest : List (Intent × ℚ)),
      r.sorted_intents = (i, c) :: rest →
        (c ≤ t →
          (r.noneIfBelow t).sorted_intents = (none, 1) :: r.sorted_intents ∧
          (r.noneIfBelow t).detectedIntent = some none) ∧
        (t < c → r.noneIfBelow t = r)) ∧
    (NLUIntentRating.mk2 "x" [(some "A", 2/10), (some "B", 9/10)]).detectedIntent
      = some (some "B") ∧
    ((NLUIntentRating.mk2 "x" [(some "A", 2/10), (some "B", 9/10)]).noneIfBelow
        (9/10)).detectedIntent = some none := by
  have hsort : NLUIntentRating.mk2 "x" [(some "A", 2/10), (some "B", 9/10)]
      = ⟨"x", [(some "B", 9/10), (some "A", 2/10)]⟩ := by
    unfold NLUIntentRating.mk2 sortDesc
    norm_num [insertDesc]
  refine ⟨?_, ?_, ?_⟩
  · rintro ⟨s, si⟩ t i c rest h
    simp only [NLUIntentRating.mk.injEq] at h ⊢
    subst h
    rw [noneIfBelow_cons]
    constructor
    · intro hc
      rw [if_pos hc]
      exact ⟨rfl, rfl⟩
    · intro hc
      rw [if_neg (not_le.mpr hc)]
  · rw [hsort]; rfl
  · rw [hsort, noneIfBelow_cons, if_pos (le_refl (9/10 : ℚ))]; rfl

/-- Witness for C6 at a concrete input: a rating with top confidence 1/2 and
threshold 3/4 gets the None-intent prepended. -/
theorem c6_noneIfBelow_boundary_witness :
    ((1 : ℚ)/2 ≤ 3/4) ∧
    ((NLUIntentRating.mk "s" [(some "A", 1/2)]).noneIfBelow (3/4)).sorted_intents
      = (none, 1) :: (NLUIntentRating.mk "s" [(some "A", 1/2)]).sorted_intents := by
  refine ⟨by norm_num, ?_⟩
  exact ((c6_noneIfBelow_boundary.1 ⟨"s", [(some "A", 1/2)]⟩ (3/4)
    (some "A") (1/2) [] rfl).1 (by norm_num)).1

/-- Counterexample to claim C7 as stated: with the rating
`[("A", 0.2), ("B", 0.9)]`, thresholds `t1 = 0.9` and `t2 = 0.5 < t1`
(a falling threshold), the first `noneIfBelow` performs the replacement,
but the second one does not insert a second None-intent: the inserted
None-entry carries confidence 1.0, which is strictly above `t2`, so the
rating is unchanged and the None-entry still occurs exactly once. -/
theorem c7_counterexample :
    ((1 : ℚ)/2 < 9/10) ∧
    (((NLUIntentRating.mk2 "x" [(some "A", 2/10), (some "B", 9/10)]).noneIfBelow
        (9/10)).noneIfBelow (1/2)).sorted_intents
      = [(none, 1), (some "B", 9/10), (some "A", 2/10)] ∧
    ¬ ((((NLUIntentRating.mk2 "x" [(some "A", 2/10), (some "B", 9/10)]).noneIfBelow
        (9/10)).noneIfBelow (1/2)).sorted_intents.count ((none : Intent), (1 : ℚ))
      = 2) := by
  have hsort : NLUIntentRating.mk2 "x" [(some "A", 2/10), (some "B", 9/10)]
      = ⟨"x", [(some "B", 9/10), (some "A", 2/10)]⟩ := by
    unfold NLUIntentRating.mk2 sortDesc
    norm_num [insertDesc]
  have h1 : (NLUIntentRating.mk2 "x" [(some "A", 2/10), (some "B", 9/10)]).noneIfBelow
      (9/10) = ⟨"x", [(none, 1), (some "B", 9/10), (some "A", 2/10)]⟩ := by
    rw [hsort, noneIfBelow_cons, if_pos (le_refl (9/10 : ℚ))]
  have h2 : (((NLUIntentRating.mk2 "x" [(some "A", 2/10), (some "B", 9/10)]).noneIfBelow
      (9/10)).noneIfBelow (1/2)) = ⟨"x", [(none, 1), (some "B", 9/10), (some "A", 2/10)]⟩ := by
    rw [h1, noneIfBelow_cons, if_neg (by norm_num)]
  refine ⟨by norm_num, ?_, ?_⟩
  · rw [h2]
  · rw [h2]
    simp only [NLUIntentRating.mk.injEq]
    rw [List.count_cons_self, List.count_cons_of_ne (by
      intro hcontra
      have := congrArg Prod.fst hcontra
      simp at this), List.count_cons_of_ne (by
      intro hcontra
      have := congrArg Prod.fst hcontra
      simp at this), List.count_nil]
    norm_num

/-- Claim C7, amended: after a first `noneIfBelow t1` that performed the
replacement, a second `noneIfBelow t2` with `t2 < t1` double-inserts the
None-intent exactly when `1 ≤ t2` (the inserted None-entry has confidence
1.0); for every `t2 < 1` — in particular every threshold from the `[0, 1)`
grid — the second application leaves the rating unchanged, so no
double-insert happens. -/
theorem c7_amended (r : NLUIntentRating) (t1 t2 : ℚ) (i : Intent) (c : ℚ)
    (rest : List (Intent × ℚ)) (h : r.sorted_intents = (i, c) :: rest)
    (hc : c ≤ t1) :
    ((r.noneIfBelow t1).noneIfBelow t2).sorted_intents =
      if 1 ≤ t2 then (none, 1) :: (none, 1) :: r.sorted_intents
      else (none, 1) :: r.sorted_intents := by
  obtain ⟨s, si⟩ := r
  simp only [NLUIntentRating.mk.injEq] at h ⊢
  subst h
  rw [noneIfBelow_cons, if_pos hc, noneIfBelow_cons]
  split_ifs <;> rfl

/-- Witness for C7's amended statement at a concrete input. -/
theorem c7_amended_witness :
    ((9 : ℚ)/10 ≤ 9/10) ∧
    (((NLUIntentRating.mk "x" [(some "B", 9/10)]).noneIfBelow (9/10)).noneIfBelow
        (1/2)).sorted_intents
      = if (1 : ℚ) ≤ 1/2 then
          [(none, 1), (none, 1), (some "B", 9/10)]
        else [(none, 1), (some "B", 9/10)] := by
  exact ⟨le_refl _, c7_amended ⟨"x", [(some "B", 9/10)]⟩ (9/10) (1/2) (some "B")
    (9/10) [] rfl (le_refl _)⟩

section MetricsEngine

/-- The confusion matrix type `ConfusionMatrix` from `types.py`: a mapping
from expected intent to a mapping from detected intent to a count, embedded
as nested insertion-ordered association lists. -/
abbrev ConfusionMatrix := List (Intent × List (Intent × ℕ))

/-- Embedding of `NLUBenchmarker.__safeDivide`: 0 for 0/0, the quotient
otherwise. (For a nonzero dividend and zero divisor Python would raise
`ZeroDivisionError`; in `ℚ` the quotient is 0. The benchmarker never divides
a nonzero dividend by zero: every divisor below is a sum bounding its
dividend from above.) -/
def NLUBenchmarker.safeDivide (dividend divisor : ℚ) : ℚ :=
  if dividend = 0 ∧ divisor = 0 then 0 else dividend / divisor

/-- Embedding of `NLUBenchmarker.__prepareF1Score`: fold over all
(expected, detected, amount) cells of the confusion matrix, accumulating
`(true_positives, true_negatives, false_positives, false_negatives)`. -/
def NLUBenchmarker.prepareF1Score (intent : Intent) (cm : ConfusionMatrix) :
    ℕ × ℕ × ℕ × ℕ :=
  cm.foldl (fun acc er =>
    er.2.foldl (fun acc2 da =>
      if intent = er.1 then
        if da.1 = intent then (acc2.1 + da.2, acc2.2.1, acc2.2.2.1, acc2.2.2.2)
        else (acc2.1, acc2.2.1, acc2.2.2.1, acc2.2.2.2 + da.2)
      else
        if da.1 = intent then (acc2.1, acc2.2.1, acc2.2.2.1 + da.2, acc2.2.2.2)
        else (acc2.1, acc2.2.1 + da.2, acc2.2.2.1, acc2.2.2.2)) acc)
    (0, 0, 0, 0)

/-- Embedding of `NLUBenchmarker.confusionMatrixToF1Scores`: one F1 score
per key of the confusion matrix (`for intent in confusion_matrix.keys()`;
dict keys are unique, so the loop over keys is a map over the rows). The
score is scaled by 100 as in the source. -/
def NLUBenchmarker.confusionMatrixToF1Scores (cm : ConfusionMatrix) :
    List (Intent × ℚ) :=
  cm.map (fun row =>
    let p := NLUBenchmarker.prepareF1Score row.1 cm
    let tp : ℚ := p.1
    let fp : ℚ := p.2.2.1
    let fneg : ℚ := p.2.2.2
    let precisionQ := NLUBenchmarker.safeDivide tp (tp + fp)
    let recallQ := NLUBenchmarker.safeDivide tp (tp + fneg)
    (row.1, NLUBenchmarker.safeDivide (100 * 2 * precisionQ * recallQ)
      (precisionQ + recallQ)))

end MetricsEngine

/-- Counterexample to claim C5 as stated: on the confusion matrix
`{"A": {"B": 1}, "B": {}}` the code iterates over every key of the matrix,
so the result is `{"A": 0.0, "B": 0.0}` — it also contains an entry for
`"B"` — and not exactly the mapping `{"A": 0.0}`. -/
theorem c5_counterexample :
    NLUBenchmarker.confusionMatrixToF1Scores
        [(some "A", [(some "B", 1)]), (some "B", [])]
      = [(some "A", 0), (some "B", 0)] ∧
    lookupA (NLUBenchmarker.confusionMatrixToF1Scores
        [(some "A", [(some "B", 1)]), (some "B", [])]) (some "B") = some 0 ∧
    NLUBenchmarker.confusionMatrixToF1Scores
        [(some "A", [(some "B", 1)]), (some "B", [])]
      ≠ [(some "A", 0)] := by
  have hA : NLUBenchmarker.prepareF1Score (some "A")
      [(some "A", [(some "B", 1)]), (some "B", [])] = (0, 0, 0, 1) := by
    simp only [NLUBenchmarker.prepareF1Score, List.foldl]
    norm_num
    decide
  have hB : NLUBenchmarker.prepareF1Score (some "B")
      [(some "A", [(some "B", 1)]), (some "B", [])] = (0, 0, 1, 0) := by
    simp only [NLUBenchmarker.prepareF1Score, List.foldl]
    norm_num
    decide
  have h : NLUBenchmarker.confusionMatrixToF1Scores
      [(some "A", [(some "B", 1)]), (some "B", [])]
      = [(some "A", 0), (some "B", 0)] := by
    simp only [NLUBenchmarker.confusionMatrixToF1Scores, List.map, hA, hB]
    norm_num [NLUBenchmarker.safeDivide]
  refine ⟨h, ?_, ?_⟩
  · rw [h]
    norm_num [lookupA]
  · rw [h]
    intro hcontra
    exact absurd (congrArg List.length hcontra) (by norm_num)

/-- Claim C5, amended: `confusionMatrixToF1Scores({"A": {"B": 1}, "B": {}})`
returns the mapping `{"A": 0.0, "B": 0.0}` — one entry per expected-label
key of the matrix — with A scored 0.0 via the `safeDivide(0, 0) = 0`
convention. -/
theorem c5_amended :
    NLUBenchmarker.safeDivide 0 0 = 0 ∧
    NLUBenchmarker.confusionMatrixToF1Scores
        [(some "A", [(some "B", 1)]), (some "B", [])]
      = [(some "A", 0), (some "B", 0)] ∧
    lookupA (NLUBenchmarker.confusionMatrixToF1Scores
        [(some "A", [(some "B", 1)]), (some "B", [])]) (some "A") = some 0 := by
  have hA : NLUBenchmarker.prepareF1Score (some "A")
      [(some "A", [(some "B", 1)]), (some "B", [])] = (0, 0, 0, 1) := by
    simp only [NLUBenchmarker.prepareF1Score, List.foldl]
    norm_num
    decide
  have hB : NLUBenchmarker.prepareF1Score (some "B")
      [(some "A", [(some "B", 1)]), (some "B", [])] = (0, 0, 1, 0) := by
    simp only [NLUBenchmarker.prepareF1Score, List.foldl]
    norm_num
    decide
  have h : NLUBenchmarker.confusionMatrixToF1Scores
      [(some "A", [(some "B", 1)]), (some "B", [])]
      = [(some "A", 0), (some "B", 0)] := by
    simp only [NLUBenchmarker.confusionMatrixToF1Scores, List.map, hA, hB]
    norm_num [NLUBenchmarker.safeDivide]
  refine ⟨by norm_num [NLUBenchmarker.safeDivide], h, ?_⟩
  rw [h]
  norm_num [lookupA]

section ParallelRunner

/-- Embedding of the `ParallelException` class of `parallel_exception.py`:
an exception message, the `(exception, object)` pairs of the operation
phase, and the `(exception, object, operation result)` triples of the
rollback phase, in the source's tuple component order. -/
structure ParallelException (O : Type _) (R : Type _) (E : Type _)
    (E2 : Type _) where
  message : String
  operation_exceptions : List (E × O)
  rollback_exceptions : List (E2 × O × R)

/-- Embedding of `run_in_parallel` from `parallel_exception.py`. The
`asyncio.gather(..., return_exceptions=True)` fan-out resolves, for each
object independently, to either a result or an exception, in input order;
it is embedded as `objects.map op` with `op : O → Except E R`. The
`succeeded` / `failed` partitions, the rollback phase and the raised
`ParallelException` follow the source line by line; in the no-failure
branch the source returns the gathered results, whose payloads are
extracted here because the embedding wraps them in `Except`. -/
def run_in_parallel {O R E E2 A : Type _} (objects : List O)
    (op : O → Except E R) (rollback_op : Option (O → R → Except E2 A))
    (message : String) : Except (ParallelException O R E E2) (List R) :=
  let results := objects.map op
  let succeeded := (objects.zip results).filterMap (fun x =>
    match x.2 with | .ok r => some (x.1, r) | .error _ => none)
  let failed := (results.zip objects).filterMap (fun x =>
    match x.1 with | .error e => some (e, x.2) | .ok _ => none)
  if failed.length = 0 then
    .ok (results.filterMap Except.toOption)
  else
    let rollback_failures :=
      match rollback_op with
      | none => []
      | some rb =>
        ((succeeded.map (fun x => rb x.1 x.2)).zip succeeded).filterMap
          (fun y =>
            match y.1 with
            | .error e => some (e, y.2.1, y.2.2)
            | .ok _ => none)
    .error ⟨message, failed, rollback_failures⟩

/-- The list of `(object, result)` arguments the rollback phase of
`run_in_parallel` invokes `rollback_op` on: the `succeeded` pairs when at
least one operation failed and a rollback operation is given, nothing
otherwise (mirrors the source's `map(lambda x: rollback_op(*x), succeeded)`
fan-out and the two branches that skip it). -/
def rollbackCallArgs {O R E E2 A : Type _} (objects : List O)
    (op : O → Except E R) (rollback_op : Option (O → R → Except E2 A)) :
    List (O × R) :=
  let results := objects.map op
  let succeeded := (objects.zip results).filterMap (fun x =>
    match x.2 with | .ok r => some (x.1, r) | .error _ => none)
  let failed := (results.zip objects).filterMap (fun x =>
    match x.1 with | .error e => some (e, x.2) | .ok _ => none)
  if failed.length = 0 then []
  else
    match rollback_op with
    | none => []
    | some _ => succeeded

theorem zip_self_map_filterMap {O β γ : Type _} (l : List O) (f : O → β)
    (g : O × β → Option γ) :
    (l.zip (l.map f)).filterMap g = l.filterMap (fun o => g (o, f o)) := by
  induction l with
  | nil => rfl
  | cons o os ih =>
    simp only [List.map_cons, List.zip_cons_cons, List.filterMap_cons]
    rw [ih]

theorem map_self_zip_filterMap {O β γ : Type _} (l : List O) (f : O → β)
    (g : β × O → Option γ) :
    ((l.map f).zip l).filterMap g = l.filterMap (fun o => g (f o, o)) := by
  induction l with
  | nil => rfl
  | cons o os ih =>
    simp only [List.map_cons, List.zip_cons_cons, List.filterMap_cons]
    rw [ih]

theorem succeeded_eq {O R E : Type _} (objects : List O) (op : O → Except E R) :
    (objects.zip (objects.map op)).filterMap (fun x =>
        match x.2 with | .ok r => some (x.1, r) | .error _ => none)
      = objects.filterMap (fun o =>
          match op o with | .ok r => some (o, r) | .error _ => none) := by
  rw [zip_self_map_filterMap]

theorem failed_eq {O R E : Type _} (objects : List O) (op : O → Except E R) :
    ((objects.map op).zip objects).filterMap (fun x =>
        match x.1 with | .error e => some (e, x.2) | .ok _ => none)
      = objects.filterMap (fun o =>
          match op o with | .error e => some (e, o) | .ok _ => none) := by
  rw [map_self_zip_filterMap]

end ParallelRunner

section ParallelClaims

/-- The operation-phase failures of `run_in_parallel`, characterized
directly over the input order: one `(exception, object)` entry per object
whose operation failed. -/
def opFailuresOf {O R E : Type _} (objects : List O) (op : O → Except E R) :
    List (E × O) :=
  objects.filterMap (fun o =>
    match op o with | .error e => some (e, o) | .ok _ => none)

/-- The succeeded `(object, result)` pairs of `run_in_parallel`,
characterized directly over the input order. -/
def succeededOf {O R E : Type _} (objects : List O) (op : O → Except E R) :
    List (O × R) :=
  objects.filterMap (fun o =>
    match op o with | .ok r => some (o, r) | .error _ => none)

/-- The rollback-phase failures of `run_in_parallel`, characterized directly
over the input order: one `(exception, object, result)` entry per object
whose operation succeeded but whose rollback failed. -/
def rollbackFailuresOf {O R E E2 A : Type _} (objects : List O)
    (op : O → Except E R) (rb : O → R → Except E2 A) : List (E2 × O × R) :=
  objects.filterMap (fun o =>
    match op o with
    | .ok r =>
      (match rb o r with | .error e => some (e, o, r) | .ok _ => none)
    | .error _ => none)

theorem succeeded_filterMap_rollback {O R E E2 A : Type _} (objects : List O)
    (op : O → Except E R) (rb : O → R → Except E2 A) :
    (succeededOf objects op).filterMap (fun x =>
        match rb x.1 x.2 with | .error e => some (e, x.1, x.2) | .ok _ => none)
      = rollbackFailuresOf objects op rb := by
  unfold succeededOf rollbackFailuresOf
  rw [List.filterMap_filterMap]
  apply List.filterMap_congr
  intro o _
  cases hop : op o with
  | ok r => simp
  | error e => simp

theorem count_succeededOf {O R E : Type _} [DecidableEq O] [DecidableEq R]
    (objects : List O) (op : O → Except E R) (o : O) (r : R)
    (h : op o = .ok r) :
    (succeededOf objects op).count (o, r) = objects.count o := by
  induction objects with
  | nil => rfl
  | cons o2 os ih =>
    unfold succeededOf at ih ⊢
    cases hop : op o2 with
    | ok r2 =>
      by_cases heq : o2 = o
      · subst heq
        rw [h] at hop
        cases hop
        simp only [List.filterMap_cons, h]
        rw [List.count_cons_self, List.count_cons_self, ih]
      · simp only [List.filterMap_cons, hop]
        rw [List.count_cons_of_ne (by
            simp only [ne_eq, Prod.mk.injEq, not_and]
            exact fun h1 _ => heq h1.symm),
          List.count_cons_of_ne (fun hcontra => heq hcontra.symm), ih]
    | error e =>
      have heq : o2 ≠ o := by
        intro hcontra
        subst hcontra
        rw [h] at hop
        cases hop
      simp only [List.filterMap_cons, hop]
      rw [List.count_cons_of_ne (fun hcontra => heq hcontra.symm), ih]

theorem failed_ne_nil {O R E : Type _} (objects : List O) (op : O → Except E R)
    (hfail : ∃ o ∈ objects, (op o).isOk = false) :
    (opFailuresOf objects op).length ≠ 0 := by
  obtain ⟨o, hmem, hko⟩ := hfail
  intro hlen
  rw [List.length_eq_zero] at hlen
  unfold opFailuresOf at hlen
  rw [List.filterMap_eq_nil_iff] at hlen
  have h2 := hlen o hmem
  cases hop : op o with
  | ok r =>
    rw [hop] at hko
    cases hko
  | error e =>
    rw [hop] at h2
    cases h2

end ParallelClaims

/-- Claim C1: when `op` fails on at least one object and a rollback
operation is given, `run_in_parallel` invokes `rollback_op` exactly once for
each object whose operation succeeded (passing that object and its result),
and raises a `ParallelException` carrying the given message, one entry per
failed `(object, error)` pair, and one entry per `(object, result, error)`
triple whose rollback itself failed; the exception is raised regardless of
the rollback outcomes, rollback failures are captured inside it rather than
re-raised, and with `rollback_op = None` the rollback phase is skipped and
the rollback-failure list is empty. -/
theorem c1_run_in_parallel_failure {O R E E2 A : Type _} [DecidableEq O]
    [DecidableEq R] (objects : List O) (op : O → Except E R)
    (rb : O → R → Except E2 A) (message : String)
    (hfail : ∃ o ∈ objects, (op o).isOk = false) :
    (∃ ex, run_in_parallel objects op (some rb) message = .error ex ∧
      ex.message = message ∧
      ex.operation_exceptions = opFailuresOf objects op ∧
      ex.rollback_exceptions = rollbackFailuresOf objects op rb) ∧
    rollbackCallArgs objects op (some rb) = succeededOf objects op ∧
    (∀ o r, op o = .ok r →
      (rollbackCallArgs objects op (some rb)).count (o, r) = objects.count o) ∧
    (∃ ex, run_in_parallel objects op
        (none : Option (O → R → Except E2 A)) message = .error ex ∧
      ex.message = message ∧
      ex.operation_exceptions = opFailuresOf objects op ∧
      ex.rollback_exceptions = []) ∧
    rollbackCallArgs objects op (none : Option (O → R → Except E2 A)) = [] := by
  have hfa : ((objects.map op).zip objects).filterMap (fun x =>
      match x.1 with | .error e => some (e, x.2) | .ok _ => none)
      = opFailuresOf objects op := failed_eq objects op
  have hsu : (objects.zip (objects.map op)).filterMap (fun x =>
      match x.2 with | .ok r => some (x.1, r) | .error _ => none)
      = succeededOf objects op := succeeded_eq objects op
  have hlen := failed_ne_nil objects op hfail
  have hcall : rollbackCallArgs objects op (some rb) = succeededOf objects op := by
    simp only [rollbackCallArgs]
    rw [hfa, hsu, if_neg hlen]
  refine ⟨?_, hcall, ?_, ?_, ?_⟩
  · refine ⟨⟨message, opFailuresOf objects op,
      rollbackFailuresOf objects op rb⟩, ?_, rfl, rfl, rfl⟩
    simp only [run_in_parallel]
    rw [hfa, hsu, if_neg hlen, map_self_zip_filterMap,
      succeeded_filterMap_rollback]
  · intro o r hr
    rw [hcall]
    exact count_succeededOf objects op o r hr
  · refine ⟨⟨message, opFailuresOf objects op, []⟩, ?_, rfl, rfl, rfl⟩
    simp only [run_in_parallel]
    rw [hfa, if_neg hlen]
  · simp only [rollbackCallArgs]
    rw [hfa, if_neg hlen]

/-- A concrete operation for exercising `run_in_parallel`: fails on object 1,
succeeds with `10 * o` otherwise. -/
def opW : ℕ → Except String ℕ :=
  fun o => if o = 1 then .error "boom" else .ok (10 * o)

/-- A concrete rollback operation for exercising `run_in_parallel`: fails on
object 2, succeeds otherwise. -/
def rbW : ℕ → ℕ → Except String Unit :=
  fun o _ => if o = 2 then .error "rollback failed" else .ok ()

/-- Witness for C1 at a concrete input: objects `[0, 1, 2]`, the operation
failing on 1 and the rollback failing on 2. -/
theorem c1_run_in_parallel_failure_witness :
    (∃ o ∈ [0, 1, 2], (opW o).isOk = false) ∧
    ((∃ ex, run_in_parallel [0, 1, 2] opW (some rbW) "msg" = .error ex ∧
      ex.message = "msg" ∧
      ex.operation_exceptions = opFailuresOf [0, 1, 2] opW ∧
      ex.rollback_exceptions = rollbackFailuresOf [0, 1, 2] opW rbW) ∧
    rollbackCallArgs [0, 1, 2] opW (some rbW) = succeededOf [0, 1, 2] opW ∧
    (∀ o r, opW o = .ok r →
      (rollbackCallArgs [0, 1, 2] opW (some rbW)).count (o, r)
        = ([0, 1, 2].count o)) ∧
    (∃ ex, run_in_parallel [0, 1, 2] opW
        (none : Option (ℕ → ℕ → Except String Unit)) "msg" = .error ex ∧
      ex.message = "msg" ∧
      ex.operation_exceptions = opFailuresOf [0, 1, 2] opW ∧
      ex.rollback_exceptions = []) ∧
    rollbackCallArgs [0, 1, 2] opW
        (none : Option (ℕ → ℕ → Except String Unit)) = []) :=
  ⟨by decide, c1_run_in_parallel_failure [0, 1, 2] opW rbW "msg" (by decide)⟩

theorem allOk_filterMap_toOption {O R E : Type _} (op : O → Except E R) :
    ∀ (objects : List O), (∀ o ∈ objects, (op o).isOk = true) →
      (objects.filterMap (fun o => (op o).toOption)).length = objects.length ∧
      ∀ i : ℕ, (objects.filterMap (fun o => (op o).toOption))[i]?
        = (objects[i]?).bind (fun o => (op o).toOption)
  | [], _ => ⟨rfl, fun i => by cases i <;> rfl⟩
  | o :: os, h => by
    have ih := allOk_filterMap_toOption op os
      (fun o2 hm => h o2 (List.mem_cons_of_mem _ hm))
    obtain ⟨r, hr⟩ : ∃ r, op o = .ok r := by
      have hko := h o (List.mem_cons_self o os)
      cases hop : op o with
      | ok r => exact ⟨r, rfl⟩
      | error e =>
        rw [hop] at hko
        cases hko
    have hcons : (o :: os).filterMap (fun o => (op o).toOption)
        = r :: os.filterMap (fun o => (op o).toOption) := by
      simp only [List.filterMap_cons, hr]
      rfl
    constructor
    · rw [hcons, List.length_cons, List.length_cons, ih.1]
    · intro i
      cases i with
      | zero =>
        rw [hcons, List.getElem?_cons_zero, List.getElem?_cons_zero,
          Option.some_bind, hr]
        rfl
      | succ j =>
        rw [hcons]
        simp only [List.getElem?_cons_succ]
        exact ih.2 j

/-- Claim C2: when the operation succeeds on every object, `run_in_parallel`
returns normally with a result list index-aligned with the input (the i-th
result is the operation's result for the i-th object; `asyncio.gather`
preserves input order regardless of completion order), and the rollback
operation is never invoked. -/
theorem c2_run_in_parallel_success {O R E E2 A : Type _} (objects : List O)
    (op : O → Except E R) (rollback_op : Option (O → R → Except E2 A))
    (message : String) (hok : ∀ o ∈ objects, (op o).isOk = true) :
    ∃ rs, run_in_parallel objects op rollback_op message = .ok rs ∧
      rs.length = objects.length ∧
      (∀ i : ℕ, rs[i]? = (objects[i]?).bind (fun o => (op o).toOption)) ∧
      rollbackCallArgs objects op rollback_op = [] := by
  have hfa : ((objects.map op).zip objects).filterMap (fun x =>
      match x.1 with | .error e => some (e, x.2) | .ok _ => none)
      = opFailuresOf objects op := failed_eq objects op
  have hnil : opFailuresOf objects op = [] := by
    unfold opFailuresOf
    rw [List.filterMap_eq_nil_iff]
    intro o hmem
    have hko := hok o hmem
    cases hop : op o with
    | ok r => rfl
    | error e =>
      rw [hop] at hko
      cases hko
  have hlen : (opFailuresOf objects op).length = 0 := by rw [hnil]; rfl
  have hmapfm : (objects.map op).filterMap Except.toOption
      = objects.filterMap (fun o => (op o).toOption) := by
    rw [List.filterMap_map]
    rfl
  have hprops := allOk_filterMap_toOption op objects hok
  refine ⟨objects.filterMap (fun o => (op o).toOption), ?_, hprops.1,
    hprops.2, ?_⟩
  · simp only [run_in_parallel]
    rw [hfa, if_pos hlen, hmapfm]
  · simp only [rollbackCallArgs]
    rw [hfa, if_pos hlen]

/-- Witness for C2 at a concrete input: objects `[0, 2, 3]` on which `opW`
always succeeds. -/
theorem c2_run_in_parallel_success_witness :
    (∀ o ∈ [0, 2, 3], (opW o).isOk = true) ∧
    (∃ rs, run_in_parallel [0, 2, 3] opW (some rbW) "msg" = .ok rs ∧
      rs.length = ([0, 2, 3] : List ℕ).length ∧
      (∀ i : ℕ, rs[i]? = (([0, 2, 3] : List ℕ)[i]?).bind
        (fun o => (opW o).toOption)) ∧
      rollbackCallArgs [0, 2, 3] opW (some rbW) = []) :=
  ⟨by decide, c2_run_in_parallel_success [0, 2, 3] opW (some rbW) "msg"
    (by decide)⟩

section DataSet

/-- Embedding of the `NLUDataEntry` class of `nlu_data_entry.py`: a sentence
with its correct intent (`none` = the None-intent). -/
structure NLUDataEntry where
  sentence : String
  intent : Intent
deriving DecidableEq, Repr

/-- Embedding of the state of an `NLUDataSet` (`nlu_data_set.py`) relevant
to splitting: `self.__data` (entries whose intent is not None),
`self.__none_data` (entries whose intent is None) and
`self.__validation_size`, computed once in the constructor. The title,
language and caching I/O play no role in the split claims. -/
structure NLUDataSet where
  data : List NLUDataEntry
  none_data : List NLUDataEntry
  validation_size : ℕ
deriving DecidableEq, Repr

/-- Embedding of `NLUDataSet.reshuffle`: `random.shuffle(self.__data)` is
embedded by passing the shuffled order explicitly (theorems quantify over
permutations of `ds.data`); the split takes the first `validation_size`
entries as validation and the rest as training, raises `ValueError` if
either part is empty, then extends the validation data with the None-intent
entries. Returns the new `(training, validation)` pair. -/
def NLUDataSet.reshuffle (ds : NLUDataSet) (shuffled : List NLUDataEntry) :
    Except String (List NLUDataEntry × List NLUDataEntry) :=
  let training := shuffled.drop ds.validation_size
  let validation := shuffled.take ds.validation_size
  if validation.length = 0 ∨ training.length = 0 then
    .error "Validation or training data is empty."
  else
    .ok (training, validation ++ ds.none_data)

/-- Embedding of the split-relevant part of `NLUDataSet.__init__`: partition
the loaded entries by None-intent, compute
`validation_size = (validation_percentage * len(data)) // 100` over the
non-None data only, and perform the initial reshuffle (whose shuffled order
is again passed explicitly); the constructor fails iff that initial
reshuffle fails. -/
def NLUDataSet.init (entries : List NLUDataEntry) (validation_percentage : ℕ)
    (init_shuffled : List NLUDataEntry) : Except String NLUDataSet :=
  let data := entries.filter (fun e => e.intent.isSome)
  let none_data := entries.filter (fun e => e.intent.isNone)
  let ds : NLUDataSet :=
    ⟨data, none_data, (validation_percentage * data.length) / 100⟩
  (ds.reshuffle init_shuffled).map (fun _ => ds)

theorem reshuffle_ok_iff (ds : NLUDataSet) (shuffled : List NLUDataEntry) :
    (∃ tv, ds.reshuffle shuffled = .ok tv) ↔
      ¬((shuffled.take ds.validation_size).length = 0 ∨
        (shuffled.drop ds.validation_size).length = 0) := by
  unfold NLUDataSet.reshuffle
  constructor
  · rintro ⟨tv, htv⟩ hcond
    rw [if_pos hcond] at htv
    cases htv
  · intro hcond
    rw [if_neg hcond]
    exact ⟨_, rfl⟩

theorem init_ok_elim (entries : List NLUDataEntry) (p : ℕ)
    (ish : List NLUDataEntry) (ds : NLUDataSet)
    (hmk : NLUDataSet.init entries p ish = .ok ds) :
    ds.data = entries.filter (fun e => e.intent.isSome) ∧
    ds.none_data = entries.filter (fun e => e.intent.isNone) ∧
    ds.validation_size = (p * ds.data.length) / 100 ∧
    ∃ tv, ds.reshuffle ish = .ok tv := by
  simp only [NLUDataSet.init] at hmk
  cases h0 : NLUDataSet.reshuffle
      ⟨entries.filter (fun e => e.intent.isSome),
       entries.filter (fun e => e.intent.isNone),
       (p * (entries.filter (fun e => e.intent.isSome)).length) / 100⟩ ish with
  | ok tv =>
    rw [h0] at hmk
    simp only [Except.map] at hmk
    cases hmk
    exact ⟨rfl, rfl, rfl, tv, h0⟩
  | error msg =>
    rw [h0] at hmk
    simp only [Except.map] at hmk
    cases hmk

end DataSet

/-- Claim C10: if the `NLUDataSet` constructor returned normally, every
subsequent `reshuffle` (for any shuffled permutation of the non-None data)
returns normally: the empty-split branch is unreachable after successful
construction, because the validation size was computed once from the fixed
non-None data, whose length never changes, and the constructor already
performed a reshuffle of data with that same length. -/
theorem c10_reshuffle_total (entries : List NLUDataEntry) (p : ℕ)
    (ish : List NLUDataEntry) (ds : NLUDataSet)
    (hmk : NLUDataSet.init entries p ish = .ok ds)
    (hpi : ish.Perm (entries.filter (fun e => e.intent.isSome)))
    (shuffled : List NLUDataEntry) (hperm : shuffled.Perm ds.data) :
    ∃ tv, ds.reshuffle shuffled = .ok tv := by
  obtain ⟨hdata, _, _, tv0, h0⟩ := init_ok_elim entries p ish ds hmk
  have hlen : shuffled.length = ish.length := by
    rw [hperm.length_eq, hdata, hpi.length_eq]
  have h0e : ∃ tv, ds.reshuffle ish = .ok tv := ⟨tv0, h0⟩
  rw [reshuffle_ok_iff] at h0e ⊢
  rw [List.length_take, List.length_drop] at h0e ⊢
  rw [hlen]
  exact h0e

/-- Witness for C10 at a concrete input: a two-entry dataset with a 50%
split reshuffled in reversed order. -/
theorem c10_reshuffle_total_witness :
    (NLUDataSet.init [⟨"a", some "x"⟩, ⟨"b", some "y"⟩] 50
        [⟨"a", some "x"⟩, ⟨"b", some "y"⟩]
      = .ok ⟨[⟨"a", some "x"⟩, ⟨"b", some "y"⟩], [], 1⟩) ∧
    (∃ tv, NLUDataSet.reshuffle ⟨[⟨"a", some "x"⟩, ⟨"b", some "y"⟩], [], 1⟩
        [⟨"b", some "y"⟩, ⟨"a", some "x"⟩] = .ok tv) :=
  ⟨by rfl, c10_reshuffle_total [⟨"a", some "x"⟩, ⟨"b", some "y"⟩] 50
    [⟨"a", some "x"⟩, ⟨"b", some "y"⟩] _ (by rfl) (by decide)
    [⟨"b", some "y"⟩, ⟨"a", some "x"⟩] (by decide)⟩

/-- The conclusion of claim C9, as a predicate on the dataset state, the
validation percentage and the shuffled order: every successful reshuffle
yields non-empty halves whose sizes (excluding None-intent entries) are
within 1 of the exact P% split, validation contains every None-intent entry,
training contains none, and the reshuffle raises the split-empty error
exactly when one half (excluding None-intent entries) would be empty. -/
def C9Spec (ds : NLUDataSet) (p : ℕ) (shuffled : List NLUDataEntry) : Prop :=
  (∀ training validation,
    ds.reshuffle shuffled = .ok (training, validation) →
      training ≠ [] ∧
      validation.filter (fun e => e.intent.isSome) ≠ [] ∧
      (∀ e ∈ training, e.intent.isSome = true) ∧
      (∀ e ∈ ds.none_data, e ∈ validation) ∧
      |((validation.filter (fun e => e.intent.isSome)).length : ℚ)
          - (p * ds.data.length : ℚ) / 100| ≤ 1 ∧
      |(training.length : ℚ)
          - ((ds.data.length : ℚ) - (p * ds.data.length : ℚ) / 100)| ≤ 1) ∧
  ((∃ msg, ds.reshuffle shuffled = .error msg) ↔
    (ds.validation_size = 0 ∨ ds.data.length ≤ ds.validation_size))

/-- Claim C9: for a dataset constructed with N non-None entries and
validation percentage P, every normally-returning `reshuffle` (over any
permutation of the non-None data) yields non-empty training and validation
halves whose sizes (excluding None-intent entries) differ by at most 1 from
the exact P% split, the validation data contains every None-intent entry,
the training data contains no None-intent entry, and `reshuffle` raises the
split-empty `ValueError` precisely when either half (excluding None-intent
entries) would be empty. -/
theorem c9_reshuffle_split (entries : List NLUDataEntry) (p : ℕ)
    (ish : List NLUDataEntry) (ds : NLUDataSet)
    (hmk : NLUDataSet.init entries p ish = .ok ds)
    (shuffled : List NLUDataEntry) (hperm : shuffled.Perm ds.data) :
    C9Spec ds p shuffled := by
  obtain ⟨hdata, hnone, hvs, -⟩ := init_ok_elim entries p ish ds hmk
  have hlen : shuffled.length = ds.data.length := hperm.length_eq
  have hsome : ∀ e ∈ shuffled, e.intent.isSome = true := by
    intro e hm
    have : e ∈ ds.data := hperm.mem_iff.mp hm
    rw [hdata] at this
    exact (List.mem_filter.mp this).2
  have hnonesome : ∀ e ∈ ds.none_data, e.intent.isSome = false := by
    intro e hm
    rw [hnone] at hm
    have := (List.mem_filter.mp hm).2
    cases hint : e.intent with
    | none => rfl
    | some v =>
      rw [hint] at this
      cases this
  have h100 : 100 * ds.validation_size + (p * ds.data.length) % 100
      = p * ds.data.length := by
    rw [hvs]
    exact Nat.div_add_mod (p * ds.data.length) 100
  have hmod : (p * ds.data.length) % 100 < 100 :=
    Nat.mod_lt _ (by norm_num)
  constructor
  · intro training validation hok
    simp only [NLUDataSet.reshuffle] at hok
    by_cases hc : (shuffled.take ds.validation_size).length = 0 ∨
        (shuffled.drop ds.validation_size).length = 0
    · rw [if_pos hc] at hok
      cases hok
    rw [if_neg hc] at hok
    push_neg at hc
    obtain ⟨htake0, hdrop0⟩ := hc
    rw [List.length_take, hlen] at htake0
    rw [List.length_drop, hlen] at hdrop0
    have hvsN : ds.validation_size < ds.data.length := by
      rcases Nat.lt_or_ge ds.validation_size ds.data.length with h | h
      · exact h
      · exact absurd (Nat.sub_eq_zero_of_le h) hdrop0
    have hvs0 : ds.validation_size ≠ 0 := by
      intro h0
      rw [h0] at htake0
      exact htake0 (Nat.zero_min _)
    injection hok with hok2
    injection hok2 with htr hval
    subst htr
    subst hval
    have htklen : (shuffled.take ds.validation_size).length
        = ds.validation_size := by
      rw [List.length_take, hlen]
      exact Nat.min_eq_left (Nat.le_of_lt hvsN)
    have hfv : (shuffled.take ds.validation_size
        ++ ds.none_data).filter (fun e => e.intent.isSome)
        = shuffled.take ds.validation_size := by
      rw [List.filter_append]
      have h1 : (shuffled.take ds.validation_size).filter
          (fun e => e.intent.isSome) = shuffled.take ds.validation_size :=
        List.filter_eq_self.mpr
          (fun e hm => hsome e (List.mem_of_mem_take hm))
      have h2 : ds.none_data.filter (fun e => e.intent.isSome) = [] :=
        List.filter_eq_nil_iff.mpr
          (fun e hm => by rw [hnonesome e hm]; exact Bool.false_ne_true)
      rw [h1, h2, List.append_nil]
    have hq := congrArg (Nat.cast : ℕ → ℚ) h100
    push_cast at hq
    have hmq : ((p * ds.data.length % 100 : ℕ) : ℚ) < 100 := by
      exact_mod_cast hmod
    have hm0 : (0 : ℚ) ≤ ((p * ds.data.length % 100 : ℕ) : ℚ) :=
      Nat.cast_nonneg _
    refine ⟨?_, ?_, ?_, ?_, ?_, ?_⟩
    · intro hnil
      have hz := congrArg List.length hnil
      rw [List.length_drop, hlen] at hz
      exact hdrop0 hz
    · rw [hfv]
      intro hnil
      rw [hnil] at htklen
      exact hvs0 htklen.symm
    · exact fun e hm => hsome e (List.mem_of_mem_drop hm)
    · exact fun e hm => List.mem_append_right _ hm
    · rw [hfv, htklen, abs_le]
      constructor <;> linarith
    · rw [List.length_drop, hlen, Nat.cast_sub (Nat.le_of_lt hvsN), abs_le]
      constructor <;> linarith
  · constructor
    · rintro ⟨msg, hmsg⟩
      simp only [NLUDataSet.reshuffle] at hmsg
      by_cases hc : (shuffled.take ds.validation_size).length = 0 ∨
          (shuffled.drop ds.validation_size).length = 0
      · rw [List.length_take, List.length_drop, hlen] at hc
        rcases hc with h | h
        · rcases Nat.min_eq_zero_iff.mp h with h0 | h0
          · exact Or.inl h0
          · exact Or.inr (h0 ▸ Nat.zero_le _)
        · exact Or.inr (Nat.sub_eq_zero_iff_le.mp h)
      · rw [if_neg hc] at hmsg
        cases hmsg
    · intro hcond
      simp only [NLUDataSet.reshuffle]
      have hc : (shuffled.take ds.validation_size).length = 0 ∨
          (shuffled.drop ds.validation_size).length = 0 := by
        rw [List.length_take, List.length_drop, hlen]
        rcases hcond with h | h
        · exact Or.inl (by rw [h]; exact Nat.zero_min _)
        · exact Or.inr (Nat.sub_eq_zero_of_le h)
      rw [if_pos hc]
      exact ⟨_, rfl⟩

/-- Witness for C9 at a concrete input: a three-entry dataset (two labeled,
one None-intent) with a 50% split, reshuffled with the labeled entries
swapped. -/
theorem c9_reshuffle_split_witness :
    (NLUDataSet.init
        [⟨"a", some "x"⟩, ⟨"b", some "y"⟩, ⟨"c", none⟩] 50
        [⟨"a", some "x"⟩, ⟨"b", some "y"⟩]
      = .ok ⟨[⟨"a", some "x"⟩, ⟨"b", some "y"⟩], [⟨"c", none⟩], 1⟩) ∧
    C9Spec ⟨[⟨"a", some "x"⟩, ⟨"b", some "y"⟩], [⟨"c", none⟩], 1⟩ 50
      [⟨"b", some "y"⟩, ⟨"a", some "x"⟩] :=
  ⟨by rfl, c9_reshuffle_split
    [⟨"a", some "x"⟩, ⟨"b", some "y"⟩, ⟨"c", none⟩] 50
    [⟨"a", some "x"⟩, ⟨"b", some "y"⟩] _ (by rfl)
    [⟨"b", some "y"⟩, ⟨"a", some "x"⟩] (by decide)⟩

section Aggregation

/-- The type of one iteration's F1-score results, indexed by dataset title
and then framework title, with the per-intent F1 dict embedded as an
association list (the shape of one entry of the `iterations` argument of
`NLUBenchmarker.__f1ScoreMeansAndVariances`). -/
abbrev IterationScores := String → String → List (Intent × ℚ)

/-- Embedding of the `scores` collection inside
`NLUBenchmarker.__f1ScoreMeansAndVariances`: `score_getter` performs
`x[data_set.title][framework.title].get(intent, None)` on each iteration,
and the subsequent `filter` drops the `None` scores of iterations whose
validation data did not contain the intent. -/
def scoresFor (iterations : List IterationScores) (dsTitle fTitle : String)
    (intent : Intent) : List ℚ :=
  iterations.filterMap (fun it => lookupA (it dsTitle fTitle) intent)

/-- Embedding of the intent loop of `__f1ScoreMeansAndVariances` for one
(dataset, framework) pair: iterate over the set of intents of the dataset's
current validation data (a Python set, embedded as `dedup`), `continue` on
an empty score list, otherwise store the population mean and variance of
the collected scores. -/
def aggregateIntents (valIntents : List Intent)
    (iterations : List IterationScores) (dsTitle fTitle : String) :
    List (Intent × (ℚ × ℚ)) :=
  valIntents.dedup.filterMap (fun intent =>
    let scores := scoresFor iterations dsTitle fTitle intent
    if scores.isEmpty then none
    else some (intent, (meanQ scores, varQ scores)))

/-- Embedding of `NLUBenchmarker.__f1ScoreMeansAndVariances`: one entry per
dataset (keyed by title, carrying the intents of its current validation
data) containing one entry per framework with the per-intent aggregation. -/
def f1ScoreMeansAndVariances (frameworks : List String)
    (dataSets : List (String × List Intent))
    (iterations : List IterationScores) :
    List (String × List (String × List (Intent × (ℚ × ℚ)))) :=
  dataSets.map (fun ds =>
    (ds.1, frameworks.map (fun fT =>
      (fT, aggregateIntents ds.2 iterations ds.1 fT))))

theorem lookupA_agg {α β : Type _} [DecidableEq α] (keys : List α)
    (hn : keys.Nodup) (sc : α → List ℚ) (val : α → β) (k : α) :
    lookupA (keys.filterMap (fun i =>
        if (sc i).isEmpty then none else some (i, val i))) k
      = if k ∈ keys ∧ (sc k).isEmpty = false then some (val k) else none := by
  induction keys with
  | nil => simp [lookupA]
  | cons i rest ih =>
    obtain ⟨hni, hnrest⟩ := List.nodup_cons.mp hn
    rw [List.filterMap_cons]
    by_cases hi : (sc i).isEmpty
    · rw [if_pos hi, ih hnrest]
      by_cases hk : k = i
      · subst hk
        rw [if_neg (fun hcontra => hni hcontra.1), if_neg
          (fun hcontra => by rw [hi] at hcontra; cases hcontra.2)]
      · have hmc : (k ∈ i :: rest) ↔ (k ∈ rest) := by
          rw [List.mem_cons]
          exact or_iff_right hk
        rw [if_congr (and_congr_left fun _ => hmc.symm) rfl rfl]
    · rw [if_neg hi]
      simp only [lookupA]
      by_cases hk : i = k
      · subst hk
        rw [if_pos rfl, if_pos ⟨List.mem_cons_self _ _, by
          cases hb : (sc i).isEmpty with
          | true => exact absurd hb hi
          | false => rfl⟩]
      · have hk2 : ¬ k = i := fun h => hk h.symm
        rw [if_neg hk, ih hnrest]
        have hmc : (k ∈ i :: rest) ↔ (k ∈ rest) := by
          rw [List.mem_cons]
          exact or_iff_right hk2
        rw [if_congr (and_congr_left fun _ => hmc.symm) rfl rfl]

theorem lookupA_pairs_map {α β γ : Type _} [DecidableEq α]
    (l : List (α × β)) (g : α × β → γ) (k : α) (b : β)
    (hmem : (k, b) ∈ l) (hn : (l.map Prod.fst).Nodup) :
    lookupA (l.map (fun p => (p.1, g p))) k = some (g (k, b)) := by
  induction l with
  | nil => cases hmem
  | cons p rest ih =>
    rw [List.map_cons] at hn
    obtain ⟨hnp, hnrest⟩ := List.nodup_cons.mp hn
    rw [List.map_cons]
    simp only [lookupA]
    by_cases hk : p.1 = k
    · rw [if_pos hk]
      rcases List.mem_cons.mp hmem with h | h
      · rw [h]
      · exact absurd (List.mem_map_of_mem Prod.fst h) (hk ▸ hnp)
    · rw [if_neg hk]
      rcases List.mem_cons.mp hmem with h | h
      · exact absurd (congrArg Prod.fst h).symm hk
      · exact ih h hnrest

theorem lookupA_key_map {α γ : Type _} [DecidableEq α] (l : List α)
    (g : α → γ) (k : α) (hmem : k ∈ l) (hn : l.Nodup) :
    lookupA (l.map (fun a => (a, g a))) k = some (g k) := by
  induction l with
  | nil => cases hmem
  | cons a rest ih =>
    obtain ⟨hna, hnrest⟩ := List.nodup_cons.mp hn
    rw [List.map_cons]
    simp only [lookupA]
    by_cases hk : a = k
    · subst hk
      rw [if_pos rfl]
    · rw [if_neg hk]
      rcases List.mem_cons.mp hmem with h | h
      · exact absurd h.symm hk
      · exact ih h hnrest

end Aggregation

/-- Counterexample to claim C4 as stated: the aggregation loop iterates over
the intents of the dataset's validation data *at aggregation time* (after
the final reshuffle), not over the union of intents across iterations. With
final validation intents `["A"]` and one iteration whose F1 dict for the
pair is `{"B": 50}`, the intent B has per-iteration scores `[50]` (so the
claim requires it to be reported with mean 50, variance 0), yet the result
omits B entirely — its entry is `none`, not `some (50, 0)`. -/
theorem c4_counterexample :
    scoresFor [fun _ _ => [(some "B", 50)]] "D" "F" (some "B") = [50] ∧
    f1ScoreMeansAndVariances ["F"] [("D", [some "A"])]
        [fun _ _ => [(some "B", 50)]]
      = [("D", [("F", [])])] ∧
    lookupA (aggregateIntents [some "A"] [fun _ _ => [(some "B", 50)]]
        "D" "F") (some "B") = none ∧
    ¬ (lookupA (aggregateIntents [some "A"] [fun _ _ => [(some "B", 50)]]
        "D" "F") (some "B") = some (50, 0)) := by
  refine ⟨rfl, ?_, rfl, ?_⟩
  · rfl
  · intro hcontra
    cases hcontra

/-- Claim C4, amended: for every (dataset, framework, intent) triple, the
aggregation reports the population mean and population variance of the
intent's per-iteration F1 scores over only the iterations in which the
intent was present in that iteration's validation data — provided the
intent also appears in the dataset's validation data at aggregation time
(the split left by the final reshuffle), which is the set the code
iterates over; an intent that never appears in any iteration, or that is
absent from that final validation data, is omitted entirely from the
result rather than scored as zero. -/
theorem c4_amended (frameworks : List String)
    (dataSets : List (String × List Intent))
    (iterations : List IterationScores) (dsTitle : String)
    (valIntents : List Intent) (fTitle : String)
    (hds : (dsTitle, valIntents) ∈ dataSets) (hf : fTitle ∈ frameworks)
    (hnds : (dataSets.map Prod.fst).Nodup) (hnf : frameworks.Nodup) :
    ∃ byFramework,
      lookupA (f1ScoreMeansAndVariances frameworks dataSets iterations)
        dsTitle = some byFramework ∧
      lookupA byFramework fTitle
        = some (aggregateIntents valIntents iterations dsTitle fTitle) ∧
      ∀ intent,
        lookupA (aggregateIntents valIntents iterations dsTitle fTitle) intent
          = if intent ∈ valIntents ∧
              (scoresFor iterations dsTitle fTitle intent).isEmpty = false
            then some (meanQ (scoresFor iterations dsTitle fTitle intent),
              varQ (scoresFor iterations dsTitle fTitle intent))
            else none := by
  refine ⟨frameworks.map (fun fT =>
    (fT, aggregateIntents valIntents iterations dsTitle fT)), ?_, ?_, ?_⟩
  · unfold f1ScoreMeansAndVariances
    exact lookupA_pairs_map dataSets
      (fun ds => frameworks.map (fun fT =>
        (fT, aggregateIntents ds.2 iterations ds.1 fT)))
      dsTitle valIntents hds hnds
  · exact lookupA_key_map frameworks
      (fun fT => aggregateIntents valIntents iterations dsTitle fT)
      fTitle hf hnf
  · intro intent
    unfold aggregateIntents
    rw [lookupA_agg valIntents.dedup (List.nodup_dedup _)
      (scoresFor iterations dsTitle fTitle)
      (fun i => (meanQ (scoresFor iterations dsTitle fTitle i),
        varQ (scoresFor iterations dsTitle fTitle i))) intent]
    by_cases hmem : intent ∈ valIntents
    · have hmd : intent ∈ valIntents.dedup := List.mem_dedup.mpr hmem
      by_cases hsc : (scoresFor iterations dsTitle fTitle intent).isEmpty
          = false
      · rw [if_pos ⟨hmd, hsc⟩, if_pos ⟨hmem, hsc⟩]
      · rw [if_neg (fun hc => hsc hc.2), if_neg (fun hc => hsc hc.2)]
    · rw [if_neg (fun hc => hmem (List.mem_dedup.mp hc.1)),
        if_neg (fun hc => hmem hc.1)]

/-- Witness for C4's amended statement at a concrete input: one framework,
one dataset whose final validation intents are `["A"]`, one iteration
scoring A at 80. -/
theorem c4_amended_witness :
    ((("D" : String), [(some "A" : Intent)])
        ∈ [(("D" : String), [(some "A" : Intent)])]) ∧
    (("F" : String) ∈ ["F"]) ∧
    (∃ byFramework,
      lookupA (f1ScoreMeansAndVariances ["F"] [("D", [some "A"])]
        [fun _ _ => [(some "A", 80)]]) "D" = some byFramework ∧
      lookupA byFramework "F"
        = some (aggregateIntents [some "A"] [fun _ _ => [(some "A", 80)]]
            "D" "F") ∧
      ∀ intent,
        lookupA (aggregateIntents [some "A"] [fun _ _ => [(some "A", 80)]]
            "D" "F") intent
          = if intent ∈ [(some "A" : Intent)] ∧
              (scoresFor [fun _ _ => [(some "A", 80)]] "D" "F" intent).isEmpty
                = false
            then some
              (meanQ (scoresFor [fun _ _ => [(some "A", 80)]] "D" "F" intent),
               varQ (scoresFor [fun _ _ => [(some "A", 80)]] "D" "F" intent))
            else none) :=
  ⟨List.mem_singleton.mpr rfl, List.mem_singleton.mpr rfl,
    c4_amended ["F"] [("D", [some "A"])] [fun _ _ => [(some "A", 80)]]
      "D" [some "A"] "F" (List.mem_singleton.mpr rfl)
      (List.mem_singleton.mpr rfl) (by simp) (by simp)⟩

section ThresholdOptimizer

/-- Embedding of the grid loop of `IntentThresholdOptimizer.__iteration`:
`thresh = 0.; while thresh < 1.: grid[thresh] = calc(thresh); thresh +=
grid_step_size`, with `calc_f1_for_threshold` abstracted as a per-iteration
score function `sc`. The while loop is given explicit fuel; `gridFuel`
below always suffices for a positive step size. -/
def gridLoop (sc : ℚ → ℚ) (step : ℚ) : ℚ → ℕ → List (ℚ × ℚ)
  | _, 0 => []
  | t, fuel+1 =>
    if t < 1 then (t, sc t) :: gridLoop sc step (t + step) fuel else []

/-- Enough fuel for the grid loop: more iterations than `1 / step`. -/
def gridFuel (step : ℚ) : ℕ := (Int.ceil ((1 : ℚ) / step)).toNat + 1

/-- One iteration's grid, as returned by
`IntentThresholdOptimizer.__iteration` (threshold ↦ that iteration's score
at this threshold, in loop order). -/
def iterationGrid (sc : ℚ → ℚ) (step : ℚ) : List (ℚ × ℚ) :=
  gridLoop sc step 0 (gridFuel step)

/-- The candidate thresholds the grid loop evaluates, in loop order. -/
def gridThresholds (step : ℚ) : List ℚ :=
  (iterationGrid (fun _ => 0) step).map Prod.fst

theorem gridLoop_keys (sc sc2 : ℚ → ℚ) (step : ℚ) :
    ∀ (fuel : ℕ) (t : ℚ), (gridLoop sc step t fuel).map Prod.fst
      = (gridLoop sc2 step t fuel).map Prod.fst := by
  intro fuel
  induction fuel with
  | zero => intro t; rfl
  | succ f ih =>
    intro t
    simp only [gridLoop]
    by_cases ht : t < 1
    · rw [if_pos ht, if_pos ht, List.map_cons, List.map_cons, ih]
    · rw [if_neg ht, if_neg ht]

theorem gridLoop_eq_keys_map (sc : ℚ → ℚ) (step : ℚ) :
    ∀ (fuel : ℕ) (t : ℚ), gridLoop sc step t fuel
      = ((gridLoop sc step t fuel).map Prod.fst).map (fun u => (u, sc u)) := by
  intro fuel
  induction fuel with
  | zero => intro t; rfl
  | succ f ih =>
    intro t
    simp only [gridLoop]
    by_cases ht : t < 1
    · rw [if_pos ht, List.map_cons, List.map_cons]
      exact congrArg _ (ih (t + step))
    · rw [if_neg ht]
      rfl

theorem mem_gridLoop_keys (sc : ℚ → ℚ) (step : ℚ) :
    ∀ (fuel : ℕ) (t x : ℚ),
      x ∈ (gridLoop sc step t fuel).map Prod.fst →
      ∃ k : ℕ, x = t + k * step ∧ x < 1 := by
  intro fuel
  induction fuel with
  | zero => intro t x hx; cases hx
  | succ f ih =>
    intro t x hx
    simp only [gridLoop] at hx
    by_cases ht : t < 1
    · rw [if_pos ht, List.map_cons] at hx
      rcases List.mem_cons.mp hx with h | h
      · exact ⟨0, by rw [h]; push_cast; ring, h ▸ ht⟩
      · obtain ⟨k, hk, hlt⟩ := ih (t + step) x h
        exact ⟨k + 1, by rw [hk]; push_cast; ring, hlt⟩
    · rw [if_neg ht] at hx
      cases hx
theorem gridLoop_mem_of (sc : ℚ → ℚ) (step : ℚ) (hstep : 0 < step) :
    ∀ (k fuel : ℕ) (t : ℚ), k < fuel → t + k * step < 1 →
      t + k * step ∈ (gridLoop sc step t fuel).map Prod.fst := by
  intro k
  induction k with
  | zero =>
    intro fuel t hf hlt
    cases fuel with
    | zero => cases hf
    | succ f =>
      have ht : t < 1 := by push_cast at hlt; linarith
      simp only [gridLoop, if_pos ht, List.map_cons]
      rw [show t + ((0 : ℕ) : ℚ) * step = t by push_cast; ring]
      exact List.mem_cons_self _ _
  | succ k ih =>
    intro fuel t hf hlt
    cases fuel with
    | zero => cases hf
    | succ f =>
      have hks : (0 : ℚ) ≤ (k + 1 : ℕ) * step := by positivity
      have ht : t < 1 := by linarith
      simp only [gridLoop, if_pos ht, List.map_cons]
      apply List.mem_cons_of_mem
      have heq : t + (k + 1 : ℕ) * step = (t + step) + k * step := by
        push_cast; ring
      rw [heq]
      exact ih f (t + step) (Nat.lt_of_succ_lt_succ hf) (heq ▸ hlt)

theorem pairwise_gridLoop (sc : ℚ → ℚ) (step : ℚ) (hstep : 0 < step) :
    ∀ (fuel : ℕ) (t : ℚ),
      ((gridLoop sc step t fuel).map Prod.fst).Pairwise (· < ·) := by
  intro fuel
  induction fuel with
  | zero => intro t; exact List.Pairwise.nil
  | succ f ih =>
    intro t
    simp only [gridLoop]
    by_cases ht : t < 1
    · rw [if_pos ht, List.map_cons]
      refine List.pairwise_cons.mpr ⟨?_, ih (t + step)⟩
      intro y hy
      obtain ⟨k, hk, -⟩ := mem_gridLoop_keys sc step f (t + step) y hy
      have : (0 : ℚ) ≤ (k : ℚ) * step := by positivity
      rw [hk]
      linarith
    · rw [if_neg ht]
      exact List.Pairwise.nil

theorem head_gridThresholds (step : ℚ) :
    (gridThresholds step).head? = some 0 := by
  unfold gridThresholds iterationGrid gridFuel
  simp only [gridLoop]
  rw [if_pos (by norm_num : (0 : ℚ) < 1), List.map_cons]
  rfl

theorem fuel_sufficient (step : ℚ) (hstep : 0 < step) (k : ℕ)
    (hk : (k : ℚ) * step < 1) : k < gridFuel step := by
  have h1 : (k : ℚ) < 1 / step := by
    rw [lt_div_iff₀ hstep]
    linarith
  have h2 : (k : ℤ) < Int.ceil ((1 : ℚ) / step) := by
    rw [Int.lt_ceil]
    exact_mod_cast h1
  unfold gridFuel
  have h0 : (0 : ℤ) ≤ (k : ℤ) := Int.ofNat_nonneg k
  have hpos : (0 : ℤ) < Int.ceil ((1 : ℚ) / step) := by linarith
  have htn : ((Int.ceil ((1 : ℚ) / step)).toNat : ℤ)
      = Int.ceil ((1 : ℚ) / step) :=
    Int.toNat_of_nonneg (le_of_lt hpos)
  have h3 : (k : ℤ) < ((Int.ceil ((1 : ℚ) / step)).toNat : ℤ) := by
    rw [htn]
    exact h2
  have hkn : k < (Int.ceil ((1 : ℚ) / step)).toNat := by exact_mod_cast h3
  omega

theorem mem_gridThresholds (step : ℚ) (hstep : 0 < step) (q : ℚ) :
    q ∈ gridThresholds step ↔ ∃ k : ℕ, q = (k : ℚ) * step ∧ q < 1 := by
  unfold gridThresholds iterationGrid
  constructor
  · intro hq
    obtain ⟨k, hk, hlt⟩ := mem_gridLoop_keys _ step (gridFuel step) 0 q hq
    exact ⟨k, by rw [hk]; ring, hlt⟩
  · rintro ⟨k, hk, hlt⟩
    rw [hk] at hlt
    have hlt2 : (0 : ℚ) + (k : ℚ) * step < 1 := by rw [zero_add]; exact hlt
    have hm := gridLoop_mem_of (fun _ => (0 : ℚ)) step hstep k (gridFuel step)
      0 (fuel_sufficient step hstep k hlt) hlt2
    rw [hk]
    simpa using hm

end ThresholdOptimizer

section OptimizerCollect

/-- Embedding of `grids[thresh] = grids.get(thresh, []);
grids[thresh].append(score)` from `IntentThresholdOptimizer.optimize`. -/
def dictAppendScore (gs : List (ℚ × List ℚ)) (t s : ℚ) : List (ℚ × List ℚ) :=
  updateA gs t (fun o => o.getD [] ++ [s])

/-- Merging one iteration's grid into the collection (the inner
`for thresh, score in grid.items()` loop of `optimize`). -/
def addGrid (gs : List (ℚ × List ℚ)) (grid : List (ℚ × ℚ)) :
    List (ℚ × List ℚ) :=
  grid.foldl (fun acc p => dictAppendScore acc p.1 p.2) gs

/-- Collecting every iteration's grid (the outer iteration loop of
`optimize`). -/
def collectGrids (gridList : List (List (ℚ × ℚ))) : List (ℚ × List ℚ) :=
  gridList.foldl addGrid []

/-- The loop body of the arg-max selection in `optimize`:
`if score_avg["mean"] > t_max["score"]: t_max = {"score": ..., "thresh":
thresh}`, with `tm = (score, thresh)`. -/
def selStep (tm : ℚ × ℚ) (p : ℚ × (ℚ × ℚ)) : ℚ × ℚ :=
  if p.2.1 > tm.1 then (p.2.1, p.1) else tm

/-- Embedding of `IntentThresholdOptimizer.optimize`: each iteration's
framework interaction (train, classify, cleanup — external engine I/O
performed by `__iteration`) is abstracted into the per-iteration score
function it induces, `scoreFns[i] t` being iteration i's
`calc_f1_for_threshold(t)`; the grid generation, the per-threshold score
collection, the mean/variance computation and the strict arg-max selection
(initialised with score 0 and threshold 0) follow the source. -/
def IntentThresholdOptimizer.optimize (scoreFns : List (ℚ → ℚ))
    (grid_step_size : ℚ) : ℚ :=
  let grids := collectGrids
    (scoreFns.map (fun sc => iterationGrid sc grid_step_size))
  let grids_avg := grids.map (fun p => (p.1, (meanQ p.2, varQ p.2)))
  let t_max := grids_avg.foldl selStep ((0 : ℚ), (0 : ℚ))
  t_max.2

theorem updateA_notmem {α β : Type _} [DecidableEq α] (m : List (α × β))
    (k : α) (f : Option β → β) (h : k ∉ m.map Prod.fst) :
    updateA m k f = m ++ [(k, f none)] := by
  induction m with
  | nil => rfl
  | cons p rest ih =>
    rw [List.map_cons] at h
    simp only [updateA]
    rw [if_neg (by intro hc; rw [← hc] at h; exact h (List.mem_cons_self _ _)),
      ih (fun hc => h (List.mem_cons_of_mem _ hc)), List.cons_append]

theorem updateA_append_hit {α β : Type _} [DecidableEq α]
    (pre : List (α × β)) (k : α) (v : β) (rest : List (α × β))
    (f : Option β → β) (h : k ∉ pre.map Prod.fst) :
    updateA (pre ++ (k, v) :: rest) k f = pre ++ (k, f (some v)) :: rest := by
  induction pre with
  | nil => simp [updateA]
  | cons p pre2 ih =>
    rw [List.map_cons] at h
    rw [List.cons_append, List.cons_append]
    simp only [updateA]
    rw [if_neg (by intro hc; rw [← hc] at h; exact h (List.mem_cons_self _ _)),
      ih (fun hc => h (List.mem_cons_of_mem _ hc))]

theorem addGrid_fresh (pre : List (ℚ × List ℚ)) (ts : List ℚ) (sc : ℚ → ℚ)
    (hn : ts.Nodup) (hfresh : ∀ t ∈ ts, t ∉ pre.map Prod.fst) :
    addGrid pre (ts.map (fun t => (t, sc t)))
      = pre ++ ts.map (fun t => (t, [sc t])) := by
  induction ts generalizing pre with
  | nil => simp [addGrid]
  | cons t ts2 ih =>
    obtain ⟨hnt, hnrest⟩ := List.nodup_cons.mp hn
    rw [List.map_cons]
    unfold addGrid
    rw [List.foldl_cons]
    have h1 : dictAppendScore pre t (sc t) = pre ++ [(t, [sc t])] := by
      unfold dictAppendScore
      rw [updateA_notmem pre t _ (hfresh t (List.mem_cons_self _ _))]
      rfl
    rw [h1]
    have h2 := ih (pre ++ [(t, [sc t])]) hnrest (by
      intro u hu
      rw [List.map_append]
      intro hc
      rcases List.mem_append.mp hc with hc | hc
      · exact hfresh u (List.mem_cons_of_mem _ hu) hc
      · simp only [List.map_cons, List.map_nil, List.mem_singleton] at hc
        exact hnt (hc ▸ hu))
    unfold addGrid at h2
    rw [h2, List.append_assoc]
    rfl

theorem addGrid_update (pre : List (ℚ × List ℚ)) (ts : List ℚ)
    (prior : ℚ → List ℚ) (sc : ℚ → ℚ) (hn : ts.Nodup)
    (hfresh : ∀ t ∈ ts, t ∉ pre.map Prod.fst) :
    addGrid (pre ++ ts.map (fun t => (t, prior t)))
        (ts.map (fun t => (t, sc t)))
      = pre ++ ts.map (fun t => (t, prior t ++ [sc t])) := by
  induction ts generalizing pre with
  | nil => simp [addGrid]
  | cons t ts2 ih =>
    obtain ⟨hnt, hnrest⟩ := List.nodup_cons.mp hn
    rw [List.map_cons, List.map_cons]
    unfold addGrid
    rw [List.foldl_cons]
    have h1 : dictAppendScore (pre ++ (t, prior t) :: ts2.map
        (fun u => (u, prior u))) t (sc t)
        = pre ++ (t, prior t ++ [sc t]) :: ts2.map (fun u => (u, prior u)) := by
      unfold dictAppendScore
      rw [updateA_append_hit pre t (prior t) _ _
        (hfresh t (List.mem_cons_self _ _))]
      rfl
    rw [h1]
    have hshape : pre ++ (t, prior t ++ [sc t]) :: ts2.map
        (fun u => (u, prior u))
        = (pre ++ [(t, prior t ++ [sc t])]) ++ ts2.map
          (fun u => (u, prior u)) := by
      rw [List.append_assoc]
      rfl
    rw [hshape]
    have h2 := ih (pre ++ [(t, prior t ++ [sc t])]) hnrest (by
      intro u hu
      rw [List.map_append]
      intro hc
      rcases List.mem_append.mp hc with hc | hc
      · exact hfresh u (List.mem_cons_of_mem _ hu) hc
      · simp only [List.map_cons, List.map_nil, List.mem_singleton] at hc
        exact hnt (hc ▸ hu))
    unfold addGrid at h2
    rw [h2, List.append_assoc]
    rfl

theorem collect_aux (ts : List ℚ) (hn : ts.Nodup) :
    ∀ (fns done : List (ℚ → ℚ)),
      List.foldl addGrid (ts.map (fun t => (t, done.map (fun sc => sc t))))
          (fns.map (fun sc => ts.map (fun t => (t, sc t))))
        = ts.map (fun t => (t, (done ++ fns).map (fun sc => sc t))) := by
  intro fns
  induction fns with
  | nil => intro done; simp
  | cons sc fns2 ih =>
    intro done
    rw [List.map_cons, List.foldl_cons]
    have h1 : addGrid (ts.map (fun t => (t, done.map (fun s => s t))))
        (ts.map (fun t => (t, sc t)))
        = ts.map (fun t => (t, done.map (fun s => s t) ++ [sc t])) := by
      have := addGrid_update [] ts (fun t => done.map (fun s => s t)) sc hn
        (by intro u _ hc; cases hc)
      rw [List.nil_append] at this
      rw [this, List.nil_append]
    rw [h1]
    have h2 : ts.map (fun t => (t, done.map (fun s => s t) ++ [sc t]))
        = ts.map (fun t => (t, (done ++ [sc]).map (fun s => s t))) := by
      apply List.map_congr_left
      intro t _
      rw [List.map_append]
      rfl
    rw [h2, ih (done ++ [sc]), List.append_assoc]
    rfl

theorem collectGrids_eq (ts : List ℚ) (hn : ts.Nodup)
    (fns : List (ℚ → ℚ)) (hne : fns ≠ []) :
    collectGrids (fns.map (fun sc => ts.map (fun t => (t, sc t))))
      = ts.map (fun t => (t, fns.map (fun sc => sc t))) := by
  cases fns with
  | nil => exact absurd rfl hne
  | cons sc fns2 =>
    unfold collectGrids
    rw [List.map_cons, List.foldl_cons]
    have h1 : addGrid [] (ts.map (fun t => (t, sc t)))
        = ts.map (fun t => (t, [sc t])) := by
      have := addGrid_fresh [] ts sc hn (by intro u _ hc; cases hc)
      rw [List.nil_append] at this
      exact this
    rw [h1]
    have h2 : ts.map (fun t => (t, [sc t]))
        = ts.map (fun t => (t, [sc].map (fun s => s t))) := rfl
    rw [h2, collect_aux ts hn fns2 [sc]]
    rfl

end OptimizerCollect

section OptimizerSelect

theorem selStep_no_update (l : List (ℚ × (ℚ × ℚ))) :
    ∀ acc : ℚ × ℚ, (∀ p ∈ l, p.2.1 ≤ acc.1) → l.foldl selStep acc = acc := by
  induction l with
  | nil => intro acc _; rfl
  | cons p rest ih =>
    intro acc h
    rw [List.foldl_cons]
    have hstep : selStep acc p = acc := by
      unfold selStep
      rw [if_neg (not_lt.mpr (h p (List.mem_cons_self _ _)))]
    rw [hstep]
    exact ih acc (fun q hq => h q (List.mem_cons_of_mem _ hq))

theorem selStep_first_max (p : ℚ × (ℚ × ℚ)) (l₂ : List (ℚ × (ℚ × ℚ))) :
    ∀ (l₁ : List (ℚ × (ℚ × ℚ))) (acc : ℚ × ℚ), acc.1 < p.2.1 →
      (∀ q ∈ l₁, q.2.1 < p.2.1) → (∀ q ∈ l₂, q.2.1 ≤ p.2.1) →
      (l₁ ++ p :: l₂).foldl selStep acc = (p.2.1, p.1) := by
  intro l₁
  induction l₁ with
  | nil =>
    intro acc hgt h₁ h₂
    rw [List.nil_append, List.foldl_cons]
    have hstep : selStep acc p = (p.2.1, p.1) := by
      unfold selStep
      rw [if_pos hgt]
    rw [hstep]
    exact selStep_no_update l₂ (p.2.1, p.1) h₂
  | cons q l₁2 ih =>
    intro acc hgt h₁ h₂
    rw [List.cons_append, List.foldl_cons]
    have hlt : (selStep acc q).1 < p.2.1 := by
      unfold selStep
      by_cases hc : q.2.1 > acc.1
      · rw [if_pos hc]
        exact h₁ q (List.mem_cons_self _ _)
      · rw [if_neg hc]
        exact hgt
    exact ih (selStep acc q) hlt
      (fun r hr => h₁ r (List.mem_cons_of_mem _ hr)) h₂

theorem le_foldl_max : ∀ (xs : List ℚ) (a : ℚ), a ≤ xs.foldl max a := by
  intro xs
  induction xs with
  | nil => intro a; exact le_refl a
  | cons x rest ih =>
    intro a
    rw [List.foldl_cons]
    exact le_trans (le_max_left a x) (ih (max a x))

theorem mem_le_foldl_max : ∀ (xs : List ℚ) (a : ℚ) (x : ℚ), x ∈ xs →
    x ≤ xs.foldl max a := by
  intro xs
  induction xs with
  | nil => intro a x hx; cases hx
  | cons y rest ih =>
    intro a x hx
    rw [List.foldl_cons]
    rcases List.mem_cons.mp hx with h | h
    · exact le_trans (h ▸ le_max_right a y) (le_foldl_max rest (max a y))
    · exact ih (max a y) x h

theorem foldl_max_cases : ∀ (xs : List ℚ) (a : ℚ),
    xs.foldl max a = a ∨ xs.foldl max a ∈ xs := by
  intro xs
  induction xs with
  | nil => intro a; exact Or.inl rfl
  | cons x rest ih =>
    intro a
    rw [List.foldl_cons]
    rcases ih (max a x) with h | h
    · rcases max_choice a x with hm | hm
      · exact Or.inl (h.trans hm)
      · rw [h, hm]
        exact Or.inr (List.mem_cons_self x rest)
    · exact Or.inr (List.mem_cons_of_mem _ h)

theorem exists_first_max :
    ∀ (l : List (ℚ × (ℚ × ℚ))) (M : ℚ), (∃ p ∈ l, p.2.1 = M) →
      (∀ p ∈ l, p.2.1 ≤ M) →
      ∃ l₁ p l₂, l = l₁ ++ p :: l₂ ∧ p.2.1 = M ∧ ∀ q ∈ l₁, q.2.1 < M := by
  intro l
  induction l with
  | nil =>
    intro M hatt _
    obtain ⟨p, hp, -⟩ := hatt
    cases hp
  | cons q rest ih =>
    intro M hatt hub
    by_cases hq : q.2.1 = M
    · exact ⟨[], q, rest, rfl, hq, fun r hr => absurd hr (List.not_mem_nil r)⟩
    · have hatt2 : ∃ p ∈ rest, p.2.1 = M := by
        obtain ⟨p, hp, hpM⟩ := hatt
        rcases List.mem_cons.mp hp with h | h
        · exact absurd (h ▸ hpM) hq
        · exact ⟨p, h, hpM⟩
      obtain ⟨l₁, p, l₂, heq, hpM, hlt⟩ := ih M hatt2
        (fun r hr => hub r (List.mem_cons_of_mem _ hr))
      refine ⟨q :: l₁, p, l₂, by rw [List.cons_append, heq], hpM, ?_⟩
      intro r hr
      rcases List.mem_cons.mp hr with h | h
      · exact h ▸ lt_of_le_of_ne (hub q (List.mem_cons_self _ _)) hq
      · exact hlt r h

theorem select_spec (l : List (ℚ × (ℚ × ℚ))) (hne : l ≠ [])
    (h0 : ∀ p ∈ l, 0 ≤ p.2.1) (hhead : ∃ v, l.head? = some (0, v)) :
    ∃ l₁ p l₂, l = l₁ ++ p :: l₂ ∧ l.foldl selStep (0, 0) = (p.2.1, p.1) ∧
      (∀ q ∈ l₁, q.2.1 < p.2.1) ∧ (∀ q ∈ l, q.2.1 ≤ p.2.1) := by
  have hub : ∀ p ∈ l, p.2.1 ≤ (l.map (fun p => p.2.1)).foldl max 0 :=
    fun p hp => mem_le_foldl_max _ 0 _ (List.mem_map_of_mem _ hp)
  have hM0 : (0 : ℚ) ≤ (l.map (fun p => p.2.1)).foldl max 0 :=
    le_foldl_max _ 0
  obtain ⟨v, hv⟩ := hhead
  obtain ⟨hd, tl, hl⟩ : ∃ hd tl, l = hd :: tl := by
    cases l with
    | nil => exact absurd rfl hne
    | cons hd tl => exact ⟨hd, tl, rfl⟩
  have hhd : hd = (0, v) := by
    rw [hl] at hv
    cases hv
    rfl
  have hatt : ∃ p ∈ l, p.2.1 = (l.map (fun p => p.2.1)).foldl max 0 := by
    rcases foldl_max_cases (l.map (fun p => p.2.1)) 0 with h | h
    · refine ⟨hd, by rw [hl]; exact List.mem_cons_self _ _, ?_⟩
      have hhd1 : hd.2.1 ≤ (l.map (fun p => p.2.1)).foldl max 0 :=
        hub hd (by rw [hl]; exact List.mem_cons_self _ _)
      have hhd2 : 0 ≤ hd.2.1 :=
        h0 hd (by rw [hl]; exact List.mem_cons_self _ _)
      rw [h]
      rw [h] at hhd1
      linarith
    · obtain ⟨p, hp, hpM⟩ := List.mem_map.mp h
      exact ⟨p, hp, hpM⟩
  obtain ⟨l₁, p, l₂, heq, hpM, hlt⟩ := exists_first_max l _ hatt hub
  refine ⟨l₁, p, l₂, heq, ?_, fun q hq => hpM ▸ hlt q hq,
    fun q hq => hpM ▸ hub q hq⟩
  by_cases hMpos : (0 : ℚ) < (l.map (fun p => p.2.1)).foldl max 0
  · rw [heq]
    refine selStep_first_max p l₂ l₁ (0, 0) (by rw [hpM]; exact hMpos)
      (fun q hq => by rw [hpM]; exact hlt q hq) ?_
    intro q hq
    rw [hpM]
    refine hub q ?_
    rw [heq]
    exact List.mem_append_right _ (List.mem_cons_of_mem _ hq)
  · have hMz : (l.map (fun p => p.2.1)).foldl max 0 = 0 :=
      le_antisymm (not_lt.mp hMpos) hM0
    have hall : ∀ q ∈ l, q.2.1 ≤ ((0, 0) : ℚ × ℚ).1 := by
      intro q hq
      have := hub q hq
      rw [hMz] at this
      exact this
    have hl₁ : l₁ = [] := by
      cases hc : l₁ with
      | nil => rfl
      | cons r l₁2 =>
        have hr : r ∈ l₁ := by rw [hc]; exact List.mem_cons_self _ _
        have h1 := hlt r hr
        rw [hMz] at h1
        have h2 := h0 r (by
          rw [heq]
          exact List.mem_append_left _ hr)
        exact absurd h1 (not_lt.mpr h2)
    subst hl₁
    rw [List.nil_append] at heq
    have hphd : p = (0, v) := by
      rw [hl] at heq
      injection heq with h1 _
      rw [← h1]
      exact hhd
    rw [selStep_no_update l (0, 0) hall]
    have hp2 : p.2.1 = 0 := hpM.trans hMz
    have hp1 : p.1 = 0 := by rw [hphd]
    rw [hp1, hp2]

end OptimizerSelect

/-- The conclusion of claim C8: the grid of candidate thresholds is exactly
the multiples of the step size in the half-open interval `[0, 1)`, listed
in strictly ascending order starting at 0, and `optimize` returns a grid
threshold whose cross-iteration mean score is maximal, and which is the
lowest-valued threshold among those attaining that maximum. -/
def C8Spec (scoreFns : List (ℚ → ℚ)) (step : ℚ) : Prop :=
  (∀ q : ℚ, q ∈ gridThresholds step ↔ ∃ k : ℕ, q = (k : ℚ) * step ∧ q < 1) ∧
  (gridThresholds step).Pairwise (· < ·) ∧
  (gridThresholds step).head? = some 0 ∧
  IntentThresholdOptimizer.optimize scoreFns step ∈ gridThresholds step ∧
  (∀ t ∈ gridThresholds step,
    meanQ (scoreFns.map (fun sc => sc t)) ≤
      meanQ (scoreFns.map (fun sc =>
        sc (IntentThresholdOptimizer.optimize scoreFns step)))) ∧
  (∀ t ∈ gridThresholds step,
    meanQ (scoreFns.map (fun sc => sc t)) =
      meanQ (scoreFns.map (fun sc =>
        sc (IntentThresholdOptimizer.optimize scoreFns step))) →
    IntentThresholdOptimizer.optimize scoreFns step ≤ t)

/-- Claim C8: for a positive step size, at least one iteration, and
nonnegative per-iteration scores (F1 averages are always nonnegative),
`IntentThresholdOptimizer.optimize` evaluates candidate thresholds over the
half-open grid `[0, 1)` stepped by `grid_step_size` in deterministic
ascending order starting at 0, and returns the threshold whose
cross-iteration mean score is highest; when several thresholds share the
highest mean, the lowest-valued one is returned (ascending iteration with
strict `>` comparison). -/
theorem c8_optimize_grid (scoreFns : List (ℚ → ℚ)) (step : ℚ)
    (hstep : 0 < step) (hne : scoreFns ≠ [])
    (hnn : ∀ sc ∈ scoreFns, ∀ t, 0 ≤ sc t) : C8Spec scoreFns step := by
  have hpw : (gridThresholds step).Pairwise (· < ·) :=
    pairwise_gridLoop (fun _ => 0) step hstep (gridFuel step) 0
  have hnd : (gridThresholds step).Nodup := hpw.imp (fun h => ne_of_lt h)
  have hgridfn : ∀ sc : ℚ → ℚ, iterationGrid sc step
      = (gridThresholds step).map (fun t => (t, sc t)) := by
    intro sc
    show gridLoop sc step 0 (gridFuel step)
      = ((gridLoop (fun _ => 0) step 0 (gridFuel step)).map Prod.fst).map
        (fun t => (t, sc t))
    rw [gridLoop_eq_keys_map sc step (gridFuel step) 0,
      gridLoop_keys sc (fun _ => 0) step (gridFuel step) 0]
  have hcoll : collectGrids (scoreFns.map (fun sc => iterationGrid sc step))
      = (gridThresholds step).map
        (fun t => (t, scoreFns.map (fun sc => sc t))) := by
    rw [List.map_congr_left (fun sc _ => hgridfn sc)]
    exact collectGrids_eq _ hnd scoreFns hne
  have hopt : IntentThresholdOptimizer.optimize scoreFns step
      = (((gridThresholds step).map (fun t =>
          (t, (meanQ (scoreFns.map (fun sc => sc t)),
            varQ (scoreFns.map (fun sc => sc t)))))).foldl selStep (0, 0)).2 := by
    simp only [IntentThresholdOptimizer.optimize]
    rw [hcoll, List.map_map]
    rfl
  have hheadl : (((gridThresholds step).map (fun t =>
      (t, (meanQ (scoreFns.map (fun sc => sc t)),
        varQ (scoreFns.map (fun sc => sc t)))))).head?)
      = some (0, (meanQ (scoreFns.map (fun sc => sc 0)),
        varQ (scoreFns.map (fun sc => sc 0)))) := by
    rw [List.head?_map, head_gridThresholds step]
    rfl
  obtain ⟨l₁, p, l₂, heq, hfold, hlt, hub⟩ := select_spec
    ((gridThresholds step).map (fun t =>
      (t, (meanQ (scoreFns.map (fun sc => sc t)),
        varQ (scoreFns.map (fun sc => sc t))))))
    (by
      intro hnil
      rw [hnil] at hheadl
      cases hheadl)
    (by
      intro q hq
      obtain ⟨t, -, ht⟩ := List.mem_map.mp hq
      rw [← ht]
      show (0 : ℚ) ≤ meanQ (scoreFns.map (fun sc => sc t))
      unfold meanQ
      apply div_nonneg
      · apply List.sum_nonneg
        intro x hx
        obtain ⟨sc, hsc, hx2⟩ := List.mem_map.mp hx
        rw [← hx2]
        exact hnn sc hsc t
      · exact Nat.cast_nonneg _)
    ⟨_, hheadl⟩
  have hoptp : IntentThresholdOptimizer.optimize scoreFns step = p.1 := by
    rw [hopt, hfold]
  have hpmem : p ∈ (gridThresholds step).map (fun t =>
      (t, (meanQ (scoreFns.map (fun sc => sc t)),
        varQ (scoreFns.map (fun sc => sc t))))) := by
    rw [heq]
    exact List.mem_append_right _ (List.mem_cons_self _ _)
  obtain ⟨t0, ht0mem, ht0⟩ := List.mem_map.mp hpmem
  have hp1 : p.1 = t0 := by rw [← ht0]
  have hp21 : p.2.1 = meanQ (scoreFns.map (fun sc => sc t0)) := by
    rw [← ht0]
  refine ⟨mem_gridThresholds step hstep, hpw, head_gridThresholds step,
    ?_, ?_, ?_⟩
  · rw [hoptp, hp1]
    exact ht0mem
  · intro t ht
    have hq := hub ((fun t => (t, (meanQ (scoreFns.map (fun sc => sc t)),
      varQ (scoreFns.map (fun sc => sc t))))) t) (List.mem_map_of_mem _ ht)
    rw [hoptp, hp1]
    rw [hp21] at hq
    exact hq
  · intro t ht htm
    rw [hoptp, hp1] at htm ⊢
    have hq : (fun t => (t, (meanQ (scoreFns.map (fun sc => sc t)),
        varQ (scoreFns.map (fun sc => sc t))))) t
        ∈ l₁ ++ p :: l₂ := by
      rw [← heq]
      exact List.mem_map_of_mem _ ht
    rcases List.mem_append.mp hq with hq | hq
    · have := hlt _ hq
      rw [hp21] at this
      exact absurd htm (ne_of_lt this)
    · rcases List.mem_cons.mp hq with hq | hq
      · have := congrArg Prod.fst hq
        rw [hp1] at this
        exact le_of_eq this.symm
      · have hpwl : ((gridThresholds step).map (fun t =>
            (t, (meanQ (scoreFns.map (fun sc => sc t)),
              varQ (scoreFns.map (fun sc => sc t)))))).Pairwise
            (fun a b => a.1 < b.1) := List.pairwise_map.mpr hpw
        rw [heq] at hpwl
        have hcross := (List.pairwise_cons.mp
          (List.pairwise_append.mp hpwl).2.1).1
        have := hcross _ hq
        rw [hp1] at this
        exact le_of_lt this

/-- Witness for C8 at a concrete input: one iteration scoring every
threshold 0, step size 1/2. -/
theorem c8_optimize_grid_witness :
    ((0 : ℚ) < 1/2) ∧ ([fun _ => (0 : ℚ)] ≠ ([] : List (ℚ → ℚ))) ∧
    C8Spec [fun _ => (0 : ℚ)] (1/2) := by
  refine ⟨by norm_num, ?_, ?_⟩
  · intro hc
    cases hc
  · exact c8_optimize_grid [fun _ => (0 : ℚ)] (1/2) (by norm_num)
      (by intro hc; cases hc)
      (by
        intro sc hsc t
        rw [List.mem_singleton] at hsc
        rw [hsc])

section Orchestrator

/-- Trace events of the benchmark orchestrator: one event per lifecycle
call the orchestrator makes on a framework (or on a dataset, for
reshuffle). Events are annotated with the framework, the dataset being
processed and the iteration index, so that invocation counts can be read
off the trace. -/
inductive Event (F DS : Type) where
  | prepare (f : F) (d : DS)
  | unprepare (f : F) (d : DS)
  | train (f : F) (d : DS) (i : ℕ)
  | rate (f : F) (d : DS) (i : ℕ) (j : ℕ)
  | cleanup (f : F) (d : DS) (i : ℕ)
  | reshuffle (d : DS) (i : ℕ)
  | destruct (f : F)
deriving DecidableEq

/-- Outcome oracles for the external collaborators of
`NLUBenchmarker.run`: whether each lifecycle call succeeds, the size of the
validation data per iteration, and the value of the cooperative cancel flag
at its k-th sample (the flag is set from outside; an arbitrary Bool stream
covers every possible timing). -/
structure Behavior (F DS : Type) where
  prepOk : F → DS → Bool
  trainOk : F → DS → ℕ → Bool
  rateOk : F → DS → ℕ → ℕ → Bool
  cleanOk : F → DS → ℕ → Bool
  unprepOk : F → DS → Bool
  destructOk : F → Bool
  reshuffleOk : DS → ℕ → Bool
  valN : DS → ℕ → ℕ
  cancel : ℕ → Bool

variable {F DS : Type}

/-- The dataset an event belongs to (`none` for destruct, which happens
after all datasets). -/
def eventDS : Event F DS → Option DS
  | .prepare _ d => some d
  | .unprepare _ d => some d
  | .train _ d _ => some d
  | .rate _ d _ _ => some d
  | .cleanup _ d _ => some d
  | .reshuffle d _ => some d
  | .destruct _ => none

/-- The iteration an event belongs to (`none` for the per-dataset and
per-run events). -/
def eventIter : Event F DS → Option ℕ
  | .train _ _ i => some i
  | .rate _ _ i _ => some i
  | .cleanup _ _ i => some i
  | .reshuffle _ i => some i
  | _ => none

/-- A numeric tag for the event constructor. -/
def eventKind : Event F DS → ℕ
  | .prepare .. => 0
  | .unprepare .. => 1
  | .train .. => 2
  | .rate .. => 3
  | .cleanup .. => 4
  | .reshuffle .. => 5
  | .destruct .. => 6

/-- The `rateIntents` calls of `NLUFramework.__validate`: one call per
validation entry in order, stopping right after the first failing call
(the exception aborts the remaining entries). `m` counts the remaining
entries, `j` is the next entry index. -/
def rateLoop (b : Behavior F DS) (f : F) (d : DS) (i : ℕ) :
    ℕ → ℕ → List (Event F DS)
  | 0, _ => []
  | m+1, j =>
    if b.rateOk f d i j then .rate f d i j :: rateLoop b f d i m (j+1)
    else [.rate f d i j]

/-- The trace of one `NLUFramework.benchmark` call: `train`, then (if
training succeeded) the validation `rateIntents` calls, then — in a
`finally` block, hence unconditionally — `cleanupTraining`. -/
def benchEvents (b : Behavior F DS) (f : F) (d : DS) (i : ℕ) :
    List (Event F DS) :=
  .train f d i ::
    ((if b.trainOk f d i then rateLoop b f d i (b.valN d i) 0 else [])
      ++ [.cleanup f d i])

/-- Whether one `benchmark` call succeeds: training, every validation
rating and the cleanup must all succeed. -/
def benchOk (b : Behavior F DS) (f : F) (d : DS) (i : ℕ) : Bool :=
  b.trainOk f d i
    && (List.range (b.valN d i)).all (fun j => b.rateOk f d i j)
    && b.cleanOk f d i

/-- The iteration loop of `NLUBenchmarker.__run` for one dataset:
benchmark all frameworks in parallel (every framework runs its full
`benchmark`, `asyncio.gather` collecting the exceptions), then reshuffle
the dataset, store the results, and sample the cancel flag. The loop stops
when a benchmark or reshuffle fails or the flag is set. Returns the trace,
whether the loop completed normally, and the new flag-sample counter. -/
def iterLoop (b : Behavior F DS) (fs : List F) (d : DS) :
    ℕ → ℕ → ℕ → List (Event F DS) × Bool × ℕ
  | 0, _, checks => ([], true, checks)
  | m+1, i, checks =>
    let evs := fs.flatMap (fun f => benchEvents b f d i)
    if fs.all (fun f => benchOk b f d i) then
      let evs2 := evs ++ [.reshuffle d i]
      if b.reshuffleOk d i then
        if b.cancel checks then (evs2, false, checks + 1)
        else
          let r := iterLoop b fs d m (i+1) (checks + 1)
          (evs2 ++ r.1, r.2.1, r.2.2)
      else (evs2, false, checks)
    else (evs, false, checks)

/-- Processing of one dataset by `NLUBenchmarker.__run`: prepare all
frameworks via `run_in_parallel` with unprepare as the rollback (on a
prepare failure the succeeded frameworks are unprepared and the exception
propagates — the `try/finally` is not yet active); on success, the `try`
block samples the cancel flag and runs the iterations, and the `finally`
block unprepares every framework on every exit path. -/
def datasetRun (b : Behavior F DS) (fs : List F) (d : DS) (n : ℕ)
    (checks : ℕ) : List (Event F DS) × Bool × ℕ :=
  let prepEvs := fs.map (fun f => Event.prepare f d)
  if fs.all (fun f => b.prepOk f d) then
    let body :=
      if b.cancel checks then (([] : List (Event F DS)), false, checks + 1)
      else iterLoop b fs d n 0 (checks + 1)
    let unprepEvs := fs.map (fun f => Event.unprepare f d)
    (prepEvs ++ body.1 ++ unprepEvs,
      body.2.1 && fs.all (fun f => b.unprepOk f d), body.2.2)
  else
    (prepEvs ++ (fs.filter (fun f => b.prepOk f d)).map
      (fun f => Event.unprepare f d), false, checks)

/-- The dataset loop of `NLUBenchmarker.__run`: datasets are processed in
order; an error (or cancellation) while processing one dataset propagates
after its `finally` cleanup, so later datasets are not processed. -/
def runDatasets (b : Behavior F DS) (fs : List F) (n : ℕ) :
    List DS → ℕ → List (Event F DS) × Bool × ℕ
  | [], checks => ([], true, checks)
  | d :: rest, checks =>
    let r := datasetRun b fs d n checks
    if r.2.1 then
      let r2 := runDatasets b fs n rest r.2.2
      (r.1 ++ r2.1, r2.2.1, r2.2.2)
    else (r.1, false, r.2.2)

/-- Embedding of `NLUBenchmarker.run`: run `__run` over all datasets, and
in a `finally` block destruct every framework (via `run_in_parallel`
without rollback, so every framework's `destruct` is invoked even if some
fail). -/
def benchRun (b : Behavior F DS) (fs : List F) (dss : List DS) (n : ℕ) :
    List (Event F DS) × Bool :=
  let r := runDatasets b fs n dss 0
  (r.1 ++ fs.map Event.destruct, r.2.1 && fs.all (fun f => b.destructOk f))

/-- The datasets `__run` starts processing (all of them when everything
succeeds; up to and including the failing one otherwise). -/
def processedList (b : Behavior F DS) (fs : List F) (n : ℕ) :
    List DS → ℕ → List DS
  | [], _ => []
  | d :: rest, checks =>
    let r := datasetRun b fs d n checks
    if r.2.1 then d :: processedList b fs n rest r.2.2 else [d]

end Orchestrator

section OrchestratorLemmas

variable {F DS : Type} [DecidableEq F] [DecidableEq DS]

theorem count_cons_if {α : Type _} [DecidableEq α] (a b : α) (l : List α) :
    (b :: l).count a = l.count a + if b = a then 1 else 0 := by
  rw [List.count_cons]
  congr 1
  by_cases h : b = a
  · rw [if_pos h, if_pos (beq_iff_eq.mpr h)]
  · rw [if_neg h, if_neg (fun hc => h (beq_iff_eq.mp hc))]

theorem count_flatMap_sum {α β : Type _} [DecidableEq β] (l : List α)
    (g : α → List β) (e : β) :
    (l.flatMap g).count e = (l.map (fun a => (g a).count e)).sum := by
  induction l with
  | nil => rfl
  | cons a rest ih =>
    rw [List.flatMap_cons, List.count_append, List.map_cons, List.sum_cons, ih]

theorem count_map_zero {α β : Type _} [DecidableEq β] (l : List α)
    (g : α → β) (e : β) (h : ∀ a ∈ l, g a ≠ e) : (l.map g).count e = 0 := by
  rw [List.count_eq_zero]
  intro hc
  obtain ⟨a, ha, hae⟩ := List.mem_map.mp hc
  exact h a ha hae

theorem count_zero_of_shape {α : Type _} [DecidableEq α] (l : List α) (e : α)
    (h : e ∉ l) : l.count e = 0 := List.count_eq_zero.mpr h

theorem rateLoop_shape (b : Behavior F DS) (f : F) (d : DS) (i : ℕ) :
    ∀ (m j : ℕ), ∀ e ∈ rateLoop b f d i m j,
      ∃ j2, j ≤ j2 ∧ e = .rate f d i j2 := by
  intro m
  induction m with
  | zero => intro j e he; cases he
  | succ m ih =>
    intro j e he
    simp only [rateLoop] at he
    by_cases hr : b.rateOk f d i j
    · rw [if_pos hr] at he
      rcases List.mem_cons.mp he with h | h
      · exact ⟨j, le_refl j, h⟩
      · obtain ⟨j2, hj2, he2⟩ := ih (j+1) e h
        exact ⟨j2, by omega, he2⟩
    · rw [if_neg hr] at he
      rw [List.mem_singleton] at he
      exact ⟨j, le_refl j, he⟩

theorem rateLoop_count (b : Behavior F DS) (f : F) (d : DS) (i : ℕ)
    (j0 : ℕ) : ∀ (m j : ℕ),
      (rateLoop b f d i m j).count (Event.rate f d i j0) ≤ 1 ∧
      (j0 < j → (rateLoop b f d i m j).count (Event.rate f d i j0) = 0) := by
  intro m
  induction m with
  | zero => intro j; exact ⟨Nat.zero_le 1, fun _ => rfl⟩
  | succ m ih =>
    intro j
    simp only [rateLoop]
    by_cases hr : b.rateOk f d i j
    · rw [if_pos hr, count_cons_if]
      by_cases hj : j = j0
      · subst hj
        rw [(ih (j+1)).2 (Nat.lt_succ_self j), if_pos rfl]
        exact ⟨le_refl 1, fun hc => absurd hc (lt_irrefl j)⟩
      · rw [if_neg (by intro hc; injection hc with _ _ _ h4; exact hj h4)]
        refine ⟨by rw [Nat.add_zero]; exact (ih (j+1)).1, ?_⟩
        intro hlt
        rw [Nat.add_zero]
        exact (ih (j+1)).2 (by omega)
    · rw [if_neg hr]
      by_cases hj : j = j0
      · subst hj
        constructor
        · rw [count_cons_if, List.count_nil, if_pos rfl]
        · intro hc
          exact absurd hc (lt_irrefl j)
      · rw [count_cons_if, List.count_nil,
          if_neg (by intro hc; injection hc with _ _ _ h4; exact hj h4)]
        exact ⟨Nat.zero_le 1, fun _ => rfl⟩

theorem rateLoop_all_ok (b : Behavior F DS) (f : F) (d : DS) (i : ℕ) :
    ∀ (m j : ℕ), (∀ k, k < m → b.rateOk f d i (j + k) = true) →
      rateLoop b f d i m j
        = (List.range' j m).map (fun j2 => Event.rate f d i j2) := by
  intro m
  induction m with
  | zero => intro j _; rfl
  | succ m ih =>
    intro j h
    have h0 : b.rateOk f d i j = true := by
      have := h 0 (Nat.succ_pos m)
      rwa [Nat.add_zero] at this
    simp only [rateLoop, if_pos h0]
    rw [List.range'_succ, List.map_cons]
    congr 1
    rw [ih (j+1) (fun k hk => by
      have := h (k+1) (Nat.succ_lt_succ hk)
      rwa [show j + (k + 1) = j + 1 + k by omega] at this)]

theorem benchEvents_shape (b : Behavior F DS) (f : F) (d : DS) (i : ℕ) :
    ∀ e ∈ benchEvents b f d i,
      eventDS e = some d ∧ eventIter e = some i ∧
      2 ≤ eventKind e ∧ eventKind e ≤ 4 := by
  intro e he
  unfold benchEvents at he
  rcases List.mem_cons.mp he with h | h
  · subst h
    exact ⟨rfl, rfl, by norm_num [eventKind], by norm_num [eventKind]⟩
  rcases List.mem_append.mp h with h | h
  · by_cases ht : b.trainOk f d i
    · rw [if_pos ht] at h
      obtain ⟨j2, -, he2⟩ := rateLoop_shape b f d i (b.valN d i) 0 e h
      subst he2
      exact ⟨rfl, rfl, by norm_num [eventKind], by norm_num [eventKind]⟩
    · rw [if_neg ht] at h
      cases h
  · rw [List.mem_singleton] at h
    subst h
    exact ⟨rfl, rfl, by norm_num [eventKind], by norm_num [eventKind]⟩

theorem benchEvents_count_train (b : Behavior F DS) (f : F) (d : DS) (i : ℕ)
    (f2 : F) (d2 : DS) (i2 : ℕ) :
    (benchEvents b f d i).count (Event.train f2 d2 i2)
      = if f2 = f ∧ d2 = d ∧ i2 = i then 1 else 0 := by
  unfold benchEvents
  rw [count_cons_if]
  have hmid : ((if b.trainOk f d i then rateLoop b f d i (b.valN d i) 0
      else []) ++ [Event.cleanup f d i]).count (Event.train f2 d2 i2) = 0 := by
    apply count_zero_of_shape
    intro hc
    rcases List.mem_append.mp hc with h | h
    · by_cases ht : b.trainOk f d i
      · rw [if_pos ht] at h
        obtain ⟨j2, -, he2⟩ := rateLoop_shape b f d i (b.valN d i) 0 _ h
        cases he2
      · rw [if_neg ht] at h
        cases h
    · rw [List.mem_singleton] at h
      cases h
  rw [hmid, Nat.zero_add]
  by_cases h : f2 = f ∧ d2 = d ∧ i2 = i
  · obtain ⟨h1, h2, h3⟩ := h
    subst h1; subst h2; subst h3
    rw [if_pos rfl, if_pos ⟨rfl, rfl, rfl⟩]
  · rw [if_neg h, if_neg (by
      intro hc
      injection hc with h1 h2 h3
      exact h ⟨h1.symm, h2.symm, h3.symm⟩)]

theorem benchEvents_count_cleanup (b : Behavior F DS) (f : F) (d : DS)
    (i : ℕ) (f2 : F) (d2 : DS) (i2 : ℕ) :
    (benchEvents b f d i).count (Event.cleanup f2 d2 i2)
      = if f2 = f ∧ d2 = d ∧ i2 = i then 1 else 0 := by
  unfold benchEvents
  rw [count_cons_if,
    if_neg (show ¬(Event.train f d i = Event.cleanup f2 d2 i2) by
      intro hc; cases hc),
    Nat.add_zero, List.count_append]
  have h1 : ((if b.trainOk f d i then rateLoop b f d i (b.valN d i) 0
      else [])).count (Event.cleanup f2 d2 i2) = 0 := by
    apply count_zero_of_shape
    intro hc
    by_cases ht : b.trainOk f d i
    · rw [if_pos ht] at hc
      obtain ⟨j2, -, he2⟩ := rateLoop_shape b f d i (b.valN d i) 0 _ hc
      cases he2
    · rw [if_neg ht] at hc
      cases hc
  rw [h1, Nat.zero_add, count_cons_if, List.count_nil, Nat.zero_add]
  by_cases h : f2 = f ∧ d2 = d ∧ i2 = i
  · obtain ⟨h1, h2, h3⟩ := h
    subst h1; subst h2; subst h3
    rw [if_pos rfl, if_pos ⟨rfl, rfl, rfl⟩]
  · rw [if_neg h, if_neg (by
      intro hc
      injection hc with h1 h2 h3
      exact h ⟨h1.symm, h2.symm, h3.symm⟩)]

end OrchestratorLemmas

section OrchestratorLemmas2

variable {F DS : Type} [DecidableEq F] [DecidableEq DS]

theorem benchEvents_count_rate_ne (b : Behavior F DS) (f : F) (d : DS)
    (i : ℕ) (f2 : F) (d2 : DS) (i2 : ℕ) (j : ℕ)
    (h : ¬(f2 = f ∧ d2 = d ∧ i2 = i)) :
    (benchEvents b f d i).count (Event.rate f2 d2 i2 j) = 0 := by
  apply count_zero_of_shape
  intro hc
  unfold benchEvents at hc
  rcases List.mem_cons.mp hc with hm | hm
  · cases hm
  rcases List.mem_append.mp hm with hm | hm
  · by_cases ht : b.trainOk f d i
    · rw [if_pos ht] at hm
      obtain ⟨j2, -, he2⟩ := rateLoop_shape b f d i (b.valN d i) 0 _ hm
      injection he2 with h1 h2 h3 _
      exact h ⟨h1, h2, h3⟩
    · rw [if_neg ht] at hm
      cases hm
  · rw [List.mem_singleton] at hm
    cases hm

theorem benchEvents_count_rate (b : Behavior F DS) (f : F) (d : DS) (i : ℕ)
    (d2 : DS) (i2 : ℕ) (j : ℕ) :
    (benchEvents b f d i).count (Event.rate f d2 i2 j)
      = if b.trainOk f d i
        then (rateLoop b f d i (b.valN d i) 0).count (Event.rate f d2 i2 j)
        else 0 := by
  unfold benchEvents
  rw [count_cons_if,
    if_neg (show ¬(Event.train f d i = Event.rate f d2 i2 j) by
      intro hc; cases hc),
    Nat.add_zero, List.count_append]
  have h1 : ([Event.cleanup f d i] : List (Event F DS)).count
      (Event.rate f d2 i2 j) = 0 := by
    apply count_zero_of_shape
    intro hc
    rw [List.mem_singleton] at hc
    cases hc
  rw [h1, Nat.add_zero]
  by_cases ht : b.trainOk f d i
  · rw [if_pos ht, if_pos ht]
  · rw [if_neg ht, if_neg ht, List.count_nil]

theorem benchEvents_count_rate_le (b : Behavior F DS) (f : F) (d : DS)
    (i : ℕ) (f2 : F) (d2 : DS) (i2 : ℕ) (j : ℕ) :
    (benchEvents b f d i).count (Event.rate f2 d2 i2 j) ≤ 1 := by
  by_cases h : f2 = f ∧ d2 = d ∧ i2 = i
  · obtain ⟨h1, h2, h3⟩ := h
    subst h1; subst h2; subst h3
    rw [benchEvents_count_rate]
    by_cases ht : b.trainOk f2 d2 i2
    · rw [if_pos ht]
      exact (rateLoop_count b f2 d2 i2 j (b.valN d2 i2) 0).1
    · rw [if_neg ht]
      exact Nat.zero_le 1
  · rw [benchEvents_count_rate_ne b f d i f2 d2 i2 j h]
    exact Nat.zero_le 1

theorem benchOk_parts (b : Behavior F DS) (f : F) (d : DS) (i : ℕ)
    (h : benchOk b f d i = true) :
    b.trainOk f d i = true ∧
    (∀ j, j < b.valN d i → b.rateOk f d i j = true) ∧
    b.cleanOk f d i = true := by
  unfold benchOk at h
  rw [Bool.and_eq_true, Bool.and_eq_true] at h
  refine ⟨h.1.1, ?_, h.2⟩
  intro j hj
  have := List.all_eq_true.mp h.1.2 j (List.mem_range.mpr hj)
  exact this

theorem benchEvents_count_rate_ok (b : Behavior F DS) (f : F) (d : DS)
    (i : ℕ) (j : ℕ) (hok : benchOk b f d i = true) (hj : j < b.valN d i) :
    (benchEvents b f d i).count (Event.rate f d i j) = 1 := by
  obtain ⟨ht, hr, -⟩ := benchOk_parts b f d i hok
  rw [benchEvents_count_rate, if_pos ht, rateLoop_all_ok b f d i
    (b.valN d i) 0 (fun k hk => by
      rw [Nat.zero_add]
      exact hr k hk)]
  have hinj : Function.Injective
      (fun j2 => (Event.rate f d i j2 : Event F DS)) := by
    intro a b2 h
    injection h
  rw [List.count_map_of_injective _ _ hinj]
  refine List.count_eq_one_of_mem (List.nodup_range' _ _) ?_
  rw [List.mem_range'_1]
  omega

theorem seg_count_train (b : Behavior F DS) (fs : List F) (d : DS) (i : ℕ)
    (f2 : F) (d2 : DS) (i2 : ℕ) :
    (fs.flatMap (fun f => benchEvents b f d i)).count (Event.train f2 d2 i2)
      = if d2 = d ∧ i2 = i then fs.count f2 else 0 := by
  rw [count_flatMap_sum]
  by_cases h : d2 = d ∧ i2 = i
  · obtain ⟨h1, h2⟩ := h
    subst h1; subst h2
    rw [if_pos ⟨rfl, rfl⟩]
    induction fs with
    | nil => rfl
    | cons f fs2 ih =>
      rw [List.map_cons, List.sum_cons, ih, benchEvents_count_train,
        count_cons_if]
      by_cases hf : f2 = f
      · rw [if_pos ⟨hf, rfl, rfl⟩, if_pos hf.symm, Nat.add_comm]
      · rw [if_neg (fun hc => hf hc.1),
          if_neg (fun hc => hf hc.symm), Nat.zero_add, Nat.add_zero]
  · rw [if_neg h]
    apply List.sum_eq_zero
    intro x hx
    obtain ⟨f, -, hfx⟩ := List.mem_map.mp hx
    rw [← hfx, benchEvents_count_train,
      if_neg (fun hc => h ⟨hc.2.1, hc.2.2⟩)]

theorem seg_count_cleanup (b : Behavior F DS) (fs : List F) (d : DS) (i : ℕ)
    (f2 : F) (d2 : DS) (i2 : ℕ) :
    (fs.flatMap (fun f => benchEvents b f d i)).count (Event.cleanup f2 d2 i2)
      = if d2 = d ∧ i2 = i then fs.count f2 else 0 := by
  rw [count_flatMap_sum]
  by_cases h : d2 = d ∧ i2 = i
  · obtain ⟨h1, h2⟩ := h
    subst h1; subst h2
    rw [if_pos ⟨rfl, rfl⟩]
    induction fs with
    | nil => rfl
    | cons f fs2 ih =>
      rw [List.map_cons, List.sum_cons, ih, benchEvents_count_cleanup,
        count_cons_if]
      by_cases hf : f2 = f
      · rw [if_pos ⟨hf, rfl, rfl⟩, if_pos hf.symm, Nat.add_comm]
      · rw [if_neg (fun hc => hf hc.1),
          if_neg (fun hc => hf hc.symm), Nat.zero_add, Nat.add_zero]
  · rw [if_neg h]
    apply List.sum_eq_zero
    intro x hx
    obtain ⟨f, -, hfx⟩ := List.mem_map.mp hx
    rw [← hfx, benchEvents_count_cleanup,
      if_neg (fun hc => h ⟨hc.2.1, hc.2.2⟩)]

theorem seg_count_rate (b : Behavior F DS) (fs : List F) (d : DS) (i : ℕ)
    (f2 : F) (d2 : DS) (i2 : ℕ) (j : ℕ) :
    (fs.flatMap (fun f => benchEvents b f d i)).count (Event.rate f2 d2 i2 j)
      = fs.count f2 * (benchEvents b f2 d i).count (Event.rate f2 d2 i2 j) := by
  rw [count_flatMap_sum]
  induction fs with
  | nil => rw [List.map_nil, List.sum_nil, List.count_nil, Nat.zero_mul]
  | cons f fs2 ih =>
    rw [List.map_cons, List.sum_cons, ih, count_cons_if]
    by_cases hf : f = f2
    · subst hf
      rw [if_pos rfl, Nat.add_mul, Nat.one_mul, Nat.add_comm]
    · rw [benchEvents_count_rate_ne b f d i f2 d2 i2 j
        (fun hc => hf hc.1.symm), Nat.zero_add, if_neg hf, Nat.add_zero]

end OrchestratorLemmas2

section OrchestratorLemmas3

variable {F DS : Type} [DecidableEq F] [DecidableEq DS]

theorem iterLoop_step_A (b : Behavior F DS) (fs : List F) (d : DS)
    (m i checks : ℕ) (hb : ¬(fs.all (fun f => benchOk b f d i) = true)) :
    (iterLoop b fs d (m+1) i checks).1
      = fs.flatMap (fun f => benchEvents b f d i) := by
  simp only [iterLoop, if_neg hb]

theorem iterLoop_step_B (b : Behavior F DS) (fs : List F) (d : DS)
    (m i checks : ℕ) (hb : fs.all (fun f => benchOk b f d i) = true)
    (hrs : ¬(b.reshuffleOk d i = true)) :
    (iterLoop b fs d (m+1) i checks).1
      = fs.flatMap (fun f => benchEvents b f d i) ++ [.reshuffle d i] := by
  simp only [iterLoop, if_pos hb, if_neg hrs]

theorem iterLoop_step_C (b : Behavior F DS) (fs : List F) (d : DS)
    (m i checks : ℕ) (hb : fs.all (fun f => benchOk b f d i) = true)
    (hrs : b.reshuffleOk d i = true) (hcc : b.cancel checks = true) :
    (iterLoop b fs d (m+1) i checks).1
      = fs.flatMap (fun f => benchEvents b f d i) ++ [.reshuffle d i] := by
  simp only [iterLoop, if_pos hb, if_pos hrs, if_pos hcc]

theorem iterLoop_step_D (b : Behavior F DS) (fs : List F) (d : DS)
    (m i checks : ℕ) (hb : fs.all (fun f => benchOk b f d i) = true)
    (hrs : b.reshuffleOk d i = true) (hcc : ¬(b.cancel checks = true)) :
    (iterLoop b fs d (m+1) i checks).1
      = (fs.flatMap (fun f => benchEvents b f d i) ++ [.reshuffle d i])
        ++ (iterLoop b fs d m (i+1) (checks+1)).1 := by
  simp only [iterLoop, if_pos hb, if_pos hrs, if_neg hcc]

theorem iterLoop_shape (b : Behavior F DS) (fs : List F) (d : DS) :
    ∀ (m i checks : ℕ), ∀ e ∈ (iterLoop b fs d m i checks).1,
      eventDS e = some d ∧ (∃ i3, i ≤ i3 ∧ eventIter e = some i3) ∧
      2 ≤ eventKind e ∧ eventKind e ≤ 5 := by
  intro m
  induction m with
  | zero => intro i checks e he; cases he
  | succ m ih =>
    intro i checks e he
    have hseg : ∀ i4, e ∈ fs.flatMap (fun f => benchEvents b f d i4) →
        eventDS e = some d ∧ eventIter e = some i4 ∧
        2 ≤ eventKind e ∧ eventKind e ≤ 5 := by
      intro i4 hm
      obtain ⟨f, -, hbe⟩ := List.mem_flatMap.mp hm
      obtain ⟨h1, h2, h3, h4⟩ := benchEvents_shape b f d i4 e hbe
      exact ⟨h1, h2, h3, by omega⟩
    have hsegR : ∀ i4, e ∈ fs.flatMap (fun f => benchEvents b f d i4)
        ++ [Event.reshuffle d i4] →
        eventDS e = some d ∧ eventIter e = some i4 ∧
        2 ≤ eventKind e ∧ eventKind e ≤ 5 := by
      intro i4 hm
      rcases List.mem_append.mp hm with hm | hm
      · exact hseg i4 hm
      · rw [List.mem_singleton] at hm
        subst hm
        exact ⟨rfl, rfl, by norm_num [eventKind], by norm_num [eventKind]⟩
    by_cases hb : fs.all (fun f => benchOk b f d i) = true
    · by_cases hrs : b.reshuffleOk d i = true
      · by_cases hcc : b.cancel checks = true
        · rw [iterLoop_step_C b fs d m i checks hb hrs hcc] at he
          obtain ⟨h1, h2, h3, h4⟩ := hsegR i he
          exact ⟨h1, ⟨i, le_refl i, h2⟩, h3, h4⟩
        · rw [iterLoop_step_D b fs d m i checks hb hrs hcc] at he
          rcases List.mem_append.mp he with hm | hm
          · obtain ⟨h1, h2, h3, h4⟩ := hsegR i hm
            exact ⟨h1, ⟨i, le_refl i, h2⟩, h3, h4⟩
          · obtain ⟨h1, ⟨i3, hi3, h2⟩, h3, h4⟩ := ih (i+1) (checks+1) e hm
            exact ⟨h1, ⟨i3, by omega, h2⟩, h3, h4⟩
      · rw [iterLoop_step_B b fs d m i checks hb hrs] at he
        obtain ⟨h1, h2, h3, h4⟩ := hsegR i he
        exact ⟨h1, ⟨i, le_refl i, h2⟩, h3, h4⟩
    · rw [iterLoop_step_A b fs d m i checks hb] at he
      obtain ⟨h1, h2, h3, h4⟩ := hseg i he
      exact ⟨h1, ⟨i, le_refl i, h2⟩, h3, h4⟩

theorem iterLoop_tail_zero (b : Behavior F DS) (fs : List F) (d : DS)
    (m i checks : ℕ) (e : Event F DS) (hei : eventIter e = some i) :
    (iterLoop b fs d m (i+1) checks).1.count e = 0 := by
  apply count_zero_of_shape
  intro hc
  obtain ⟨-, ⟨i3, hi3, hei3⟩, -, -⟩ := iterLoop_shape b fs d m (i+1) checks e hc
  rw [hei] at hei3
  injection hei3 with h
  omega

theorem segR_count_train (b : Behavior F DS) (fs : List F) (d : DS) (i : ℕ)
    (f2 : F) (d2 : DS) (i2 : ℕ) :
    ((fs.flatMap (fun f => benchEvents b f d i))
        ++ [Event.reshuffle d i]).count (Event.train f2 d2 i2)
      = if d2 = d ∧ i2 = i then fs.count f2 else 0 := by
  rw [List.count_append, count_zero_of_shape [Event.reshuffle d i] _
    (by intro hc; rw [List.mem_singleton] at hc; cases hc),
    Nat.add_zero, seg_count_train]

theorem segR_count_cleanup (b : Behavior F DS) (fs : List F) (d : DS) (i : ℕ)
    (f2 : F) (d2 : DS) (i2 : ℕ) :
    ((fs.flatMap (fun f => benchEvents b f d i))
        ++ [Event.reshuffle d i]).count (Event.cleanup f2 d2 i2)
      = if d2 = d ∧ i2 = i then fs.count f2 else 0 := by
  rw [List.count_append, count_zero_of_shape [Event.reshuffle d i] _
    (by intro hc; rw [List.mem_singleton] at hc; cases hc),
    Nat.add_zero, seg_count_cleanup]

theorem segR_count_rate (b : Behavior F DS) (fs : List F) (d : DS) (i : ℕ)
    (f2 : F) (d2 : DS) (i2 : ℕ) (j : ℕ) :
    ((fs.flatMap (fun f => benchEvents b f d i))
        ++ [Event.reshuffle d i]).count (Event.rate f2 d2 i2 j)
      = fs.count f2 * (benchEvents b f2 d i).count (Event.rate f2 d2 i2 j) := by
  rw [List.count_append, count_zero_of_shape [Event.reshuffle d i] _
    (by intro hc; rw [List.mem_singleton] at hc; cases hc),
    Nat.add_zero, seg_count_rate]

/-- The four per-(framework, dataset, iteration) counting properties, for a
trace whose counts coincide with those of one benchmark segment. -/
theorem seg_conj (b : Behavior F DS) (fs : List F) (d : DS) (i : ℕ)
    (hn : fs.Nodup) (f2 : F) (d2 : DS) (i2 : ℕ) (tr : List (Event F DS))
    (htrain : tr.count (Event.train f2 d2 i2)
      = if d2 = d ∧ i2 = i then fs.count f2 else 0)
    (hclean : tr.count (Event.cleanup f2 d2 i2)
      = if d2 = d ∧ i2 = i then fs.count f2 else 0)
    (hrate : ∀ j, tr.count (Event.rate f2 d2 i2 j)
      = fs.count f2 * (benchEvents b f2 d i).count (Event.rate f2 d2 i2 j)) :
    (tr.count (Event.cleanup f2 d2 i2) = tr.count (Event.train f2 d2 i2)) ∧
    tr.count (Event.train f2 d2 i2) ≤ 1 ∧
    (∀ j, tr.count (Event.rate f2 d2 i2 j) ≤ 1) ∧
    (tr.count (Event.train f2 d2 i2) = 1 → benchOk b f2 d2 i2 = true →
      ∀ j, j < b.valN d2 i2 → tr.count (Event.rate f2 d2 i2 j) = 1) := by
  have hc1 : fs.count f2 ≤ 1 := List.nodup_iff_count_le_one.mp hn f2
  refine ⟨by rw [htrain, hclean], ?_, ?_, ?_⟩
  · rw [htrain]
    by_cases h : d2 = d ∧ i2 = i
    · rw [if_pos h]; exact hc1
    · rw [if_neg h]; exact Nat.zero_le 1
  · intro j
    rw [hrate j]
    calc fs.count f2 * (benchEvents b f2 d i).count (Event.rate f2 d2 i2 j)
        ≤ 1 * 1 := Nat.mul_le_mul hc1
          (benchEvents_count_rate_le b f2 d i f2 d2 i2 j)
      _ = 1 := Nat.one_mul 1
  · intro h1 hok j hj
    rw [htrain] at h1
    by_cases h : d2 = d ∧ i2 = i
    · obtain ⟨hd, hi⟩ := h
      subst hd; subst hi
      rw [if_pos ⟨rfl, rfl⟩] at h1
      rw [hrate j, h1, Nat.one_mul]
      exact benchEvents_count_rate_ok b f2 d2 i2 j hok hj
    · rw [if_neg h] at h1
      exact absurd h1 (by omega)

end OrchestratorLemmas3

section OrchestratorLemmas4

variable {F DS : Type} [DecidableEq F] [DecidableEq DS]

theorem iterLoop_counts (b : Behavior F DS) (fs : List F) (d : DS)
    (hn : fs.Nodup) : ∀ (m i checks : ℕ) (f2 : F) (d2 : DS) (i2 : ℕ),
    ((iterLoop b fs d m i checks).1.count (Event.cleanup f2 d2 i2)
      = (iterLoop b fs d m i checks).1.count (Event.train f2 d2 i2)) ∧
    (iterLoop b fs d m i checks).1.count (Event.train f2 d2 i2) ≤ 1 ∧
    (∀ j, (iterLoop b fs d m i checks).1.count (Event.rate f2 d2 i2 j) ≤ 1) ∧
    ((iterLoop b fs d m i checks).1.count (Event.train f2 d2 i2) = 1 →
      benchOk b f2 d2 i2 = true → ∀ j, j < b.valN d2 i2 →
      (iterLoop b fs d m i checks).1.count (Event.rate f2 d2 i2 j) = 1) := by
  intro m
  induction m with
  | zero =>
    intro i checks f2 d2 i2
    refine ⟨rfl, Nat.zero_le 1, fun j => Nat.zero_le 1, ?_⟩
    intro h1 hok j hj
    rw [show (iterLoop b fs d 0 i checks).1 = [] from rfl,
      List.count_nil] at h1
    rw [show (iterLoop b fs d 0 i checks).1 = [] from rfl, List.count_nil]
    omega
  | succ m ih =>
    intro i checks f2 d2 i2
    by_cases hb : fs.all (fun f => benchOk b f d i) = true
    · by_cases hrs : b.reshuffleOk d i = true
      · by_cases hcc : b.cancel checks = true
        · rw [iterLoop_step_C b fs d m i checks hb hrs hcc]
          exact seg_conj b fs d i hn f2 d2 i2 _
            (segR_count_train b fs d i f2 d2 i2)
            (segR_count_cleanup b fs d i f2 d2 i2)
            (fun j => segR_count_rate b fs d i f2 d2 i2 j)
        · rw [iterLoop_step_D b fs d m i checks hb hrs hcc]
          have hres0 : ∀ e2 : Event F DS, (∀ i4 : ℕ, e2 ≠ .reshuffle d i4) →
              ([Event.reshuffle d i] : List (Event F DS)).count e2 = 0 := by
            intro e2 he2
            apply count_zero_of_shape
            intro hc
            rw [List.mem_singleton] at hc
            exact he2 i hc
          by_cases hI : i2 = i
          · subst hI
            have ht0 : ∀ (e : Event F DS), eventIter e = some i2 →
                (iterLoop b fs d m (i2+1) (checks+1)).1.count e = 0 :=
              fun e he => iterLoop_tail_zero b fs d m i2 (checks+1) e he
            refine seg_conj b fs d i2 hn f2 d2 i2 _ ?_ ?_ ?_
            · simp only [List.count_append]
              rw [ht0 (Event.train f2 d2 i2) rfl,
                hres0 (Event.train f2 d2 i2) (fun i4 hc => by cases hc),
                seg_count_train]
              simp
            · simp only [List.count_append]
              rw [ht0 (Event.cleanup f2 d2 i2) rfl,
                hres0 (Event.cleanup f2 d2 i2) (fun i4 hc => by cases hc),
                seg_count_cleanup]
              simp
            · intro j
              simp only [List.count_append]
              rw [ht0 (Event.rate f2 d2 i2 j) rfl,
                hres0 (Event.rate f2 d2 i2 j) (fun i4 hc => by cases hc),
                seg_count_rate]
              simp
          · have hsegtr : (fs.flatMap (fun f => benchEvents b f d i)).count
                (Event.train f2 d2 i2) = 0 := by
              rw [seg_count_train, if_neg (fun hc => hI hc.2)]
            have hsegcl : (fs.flatMap (fun f => benchEvents b f d i)).count
                (Event.cleanup f2 d2 i2) = 0 := by
              rw [seg_count_cleanup, if_neg (fun hc => hI hc.2)]
            have hsegrt : ∀ j, (fs.flatMap
                (fun f => benchEvents b f d i)).count
                (Event.rate f2 d2 i2 j) = 0 := by
              intro j
              rw [seg_count_rate, benchEvents_count_rate_ne b f2 d i f2 d2
                i2 j (fun hc => hI hc.2.2), Nat.mul_zero]
            obtain ⟨ih1, ih2, ih3, ih4⟩ := ih (i+1) (checks+1) f2 d2 i2
            refine ⟨?_, ?_, ?_, ?_⟩
            · simp only [List.count_append]
              rw [hsegtr, hsegcl,
                hres0 (Event.train f2 d2 i2) (fun i4 hc => by cases hc),
                hres0 (Event.cleanup f2 d2 i2) (fun i4 hc => by cases hc)]
              simpa using ih1
            · simp only [List.count_append]
              rw [hsegtr,
                hres0 (Event.train f2 d2 i2) (fun i4 hc => by cases hc)]
              simpa using ih2
            · intro j
              simp only [List.count_append]
              rw [hsegrt j,
                hres0 (Event.rate f2 d2 i2 j) (fun i4 hc => by cases hc)]
              simpa using ih3 j
            · intro h1 hok j hj
              simp only [List.count_append] at h1 ⊢
              rw [hsegtr,
                hres0 (Event.train f2 d2 i2) (fun i4 hc => by cases hc)] at h1
              rw [hsegrt j,
                hres0 (Event.rate f2 d2 i2 j) (fun i4 hc => by cases hc)]
              simp only [Nat.zero_add] at h1 ⊢
              exact ih4 h1 hok j hj
      · rw [iterLoop_step_B b fs d m i checks hb hrs]
        exact seg_conj b fs d i hn f2 d2 i2 _
          (segR_count_train b fs d i f2 d2 i2)
          (segR_count_cleanup b fs d i f2 d2 i2)
          (fun j => segR_count_rate b fs d i f2 d2 i2 j)
    · rw [iterLoop_step_A b fs d m i checks hb]
      exact seg_conj b fs d i hn f2 d2 i2 _
        (seg_count_train b fs d i f2 d2 i2)
        (seg_count_cleanup b fs d i f2 d2 i2)
        (fun j => seg_count_rate b fs d i f2 d2 i2 j)

end OrchestratorLemmas4

section OrchestratorRun

variable {F DS : Type} [DecidableEq F] [DecidableEq DS]

theorem count_map_prepare (fs : List F) (d : DS) (f2 : F) (d2 : DS) :
    (fs.map (fun f => Event.prepare f d)).count (Event.prepare f2 d2)
      = if d2 = d then fs.count f2 else 0 := by
  by_cases h : d2 = d
  · subst h
    rw [if_pos rfl]
    exact List.count_map_of_injective fs (fun f => Event.prepare f d2)
      (fun a b hab => by injection hab) f2
  · rw [if_neg h]
    apply count_map_zero
    intro a ha hc
    injection hc with h1 h2
    exact h h2.symm

theorem count_map_unprepare (fs : List F) (d : DS) (f2 : F) (d2 : DS) :
    (fs.map (fun f => Event.unprepare f d)).count (Event.unprepare f2 d2)
      = if d2 = d then fs.count f2 else 0 := by
  by_cases h : d2 = d
  · subst h
    rw [if_pos rfl]
    exact List.count_map_of_injective fs (fun f => Event.unprepare f d2)
      (fun a b hab => by injection hab) f2
  · rw [if_neg h]
    apply count_map_zero
    intro a ha hc
    injection hc with h1 h2
    exact h h2.symm

theorem count_map_destruct (fs : List F) (f2 : F) :
    (fs.map (Event.destruct : F → Event F DS)).count (Event.destruct f2)
      = fs.count f2 :=
  List.count_map_of_injective fs Event.destruct
    (fun a b hab => by injection hab) f2

theorem iterLoop_count_kind_zero (b : Behavior F DS) (fs : List F) (d : DS)
    (m i checks : ℕ) (e : Event F DS)
    (h : eventKind e < 2 ∨ 5 < eventKind e ∨ eventDS e ≠ some d) :
    (iterLoop b fs d m i checks).1.count e = 0 := by
  apply count_zero_of_shape
  intro hc
  obtain ⟨h1, -, h3, h4⟩ := iterLoop_shape b fs d m i checks e hc
  rcases h with h | h | h
  · omega
  · omega
  · exact h h1

theorem datasetRun_trace_ok (b : Behavior F DS) (fs : List F) (d : DS)
    (n checks : ℕ) (hp : fs.all (fun f => b.prepOk f d) = true)
    (hc : ¬(b.cancel checks = true)) :
    (datasetRun b fs d n checks).1
      = fs.map (fun f => Event.prepare f d)
        ++ (iterLoop b fs d n 0 (checks + 1)).1
        ++ fs.map (fun f => Event.unprepare f d) := by
  simp only [datasetRun, if_pos hp, if_neg hc]

theorem datasetRun_trace_cancel (b : Behavior F DS) (fs : List F) (d : DS)
    (n checks : ℕ) (hp : fs.all (fun f => b.prepOk f d) = true)
    (hc : b.cancel checks = true) :
    (datasetRun b fs d n checks).1
      = fs.map (fun f => Event.prepare f d)
        ++ fs.map (fun f => Event.unprepare f d) := by
  simp only [datasetRun, if_pos hp, if_pos hc, List.append_nil]

theorem datasetRun_trace_fail (b : Behavior F DS) (fs : List F) (d : DS)
    (n checks : ℕ) (hp : ¬(fs.all (fun f => b.prepOk f d) = true)) :
    (datasetRun b fs d n checks).1
      = fs.map (fun f => Event.prepare f d)
        ++ (fs.filter (fun f => b.prepOk f d)).map
            (fun f => Event.unprepare f d) := by
  simp only [datasetRun, if_neg hp]

theorem datasetRun_shape (b : Behavior F DS) (fs : List F) (d : DS)
    (n checks : ℕ) : ∀ e ∈ (datasetRun b fs d n checks).1,
      eventDS e = some d := by
  intro e he
  by_cases hp : fs.all (fun f => b.prepOk f d) = true
  · by_cases hc : b.cancel checks = true
    · rw [datasetRun_trace_cancel b fs d n checks hp hc] at he
      rcases List.mem_append.mp he with hm | hm
      · obtain ⟨f, -, hf⟩ := List.mem_map.mp hm
        rw [← hf]; rfl
      · obtain ⟨f, -, hf⟩ := List.mem_map.mp hm
        rw [← hf]; rfl
    · rw [datasetRun_trace_ok b fs d n checks hp hc] at he
      rcases List.mem_append.mp he with hm | hm
      · rcases List.mem_append.mp hm with hm2 | hm2
        · obtain ⟨f, -, hf⟩ := List.mem_map.mp hm2
          rw [← hf]; rfl
        · exact (iterLoop_shape b fs d n 0 (checks + 1) e hm2).1
      · obtain ⟨f, -, hf⟩ := List.mem_map.mp hm
        rw [← hf]; rfl
  · rw [datasetRun_trace_fail b fs d n checks hp] at he
    rcases List.mem_append.mp he with hm | hm
    · obtain ⟨f, -, hf⟩ := List.mem_map.mp hm
      rw [← hf]; rfl
    · obtain ⟨f, -, hf⟩ := List.mem_map.mp hm
      rw [← hf]; rfl

end OrchestratorRun

section OrchestratorRun2

variable {F DS : Type} [DecidableEq F] [DecidableEq DS]

theorem datasetRun_count_prepare (b : Behavior F DS) (fs : List F) (d : DS)
    (n checks : ℕ) (f2 : F) (d2 : DS) :
    (datasetRun b fs d n checks).1.count (Event.prepare f2 d2)
      = if d2 = d then fs.count f2 else 0 := by
  have hpmap := count_map_prepare fs d f2 d2
  have hit : ∀ m i c, (iterLoop b fs d m i c).1.count (Event.prepare f2 d2)
      = 0 := fun m i c =>
    iterLoop_count_kind_zero b fs d m i c (Event.prepare f2 d2)
      (Or.inl (by simp [eventKind]))
  have humap : (fs.map (fun f => Event.unprepare f d)).count
      (Event.prepare f2 d2) = 0 :=
    count_map_zero _ _ _ (fun a ha hc => by cases hc)
  have humap2 : ((fs.filter (fun f => b.prepOk f d)).map
      (fun f => Event.unprepare f d)).count (Event.prepare f2 d2) = 0 :=
    count_map_zero _ _ _ (fun a ha hc => by cases hc)
  by_cases hp : fs.all (fun f => b.prepOk f d) = true
  · by_cases hc : b.cancel checks = true
    · rw [datasetRun_trace_cancel b fs d n checks hp hc]
      simp only [List.count_append, hpmap, humap, Nat.add_zero]
    · rw [datasetRun_trace_ok b fs d n checks hp hc]
      simp only [List.count_append, hpmap, hit, humap, Nat.add_zero]
  · rw [datasetRun_trace_fail b fs d n checks hp]
    simp only [List.count_append, hpmap, humap2, Nat.add_zero]

theorem datasetRun_count_unprepare (b : Behavior F DS) (fs : List F) (d : DS)
    (n checks : ℕ) (f2 : F) (d2 : DS)
    (hp : fs.all (fun f => b.prepOk f d) = true) :
    (datasetRun b fs d n checks).1.count (Event.unprepare f2 d2)
      = if d2 = d then fs.count f2 else 0 := by
  have humap := count_map_unprepare fs d f2 d2
  have hit : ∀ m i c, (iterLoop b fs d m i c).1.count (Event.unprepare f2 d2)
      = 0 := fun m i c =>
    iterLoop_count_kind_zero b fs d m i c (Event.unprepare f2 d2)
      (Or.inl (by simp [eventKind]))
  have hpmap : (fs.map (fun f => Event.prepare f d)).count
      (Event.unprepare f2 d2) = 0 :=
    count_map_zero _ _ _ (fun a ha hc => by cases hc)
  by_cases hc : b.cancel checks = true
  · rw [datasetRun_trace_cancel b fs d n checks hp hc]
    simp only [List.count_append, hpmap, humap, Nat.zero_add]
  · rw [datasetRun_trace_ok b fs d n checks hp hc]
    simp only [List.count_append, hpmap, hit, humap, Nat.zero_add,
      Nat.add_zero]

theorem datasetRun_count_iter (b : Behavior F DS) (fs : List F) (d : DS)
    (n checks : ℕ) (e : Event F DS) (h2 : 2 ≤ eventKind e)
    (h5 : eventKind e ≤ 5) :
    (datasetRun b fs d n checks).1.count e
      = if fs.all (fun f => b.prepOk f d) = true
          ∧ ¬(b.cancel checks = true)
        then (iterLoop b fs d n 0 (checks + 1)).1.count e else 0 := by
  have hpz : (fs.map (fun f => Event.prepare f d)).count e = 0 := by
    apply count_map_zero
    intro a ha hc
    rw [← hc] at h2
    simp [eventKind] at h2
  have huz : (fs.map (fun f => Event.unprepare f d)).count e = 0 := by
    apply count_map_zero
    intro a ha hc
    rw [← hc] at h2
    simp [eventKind] at h2
  have hfz : ((fs.filter (fun f => b.prepOk f d)).map
      (fun f => Event.unprepare f d)).count e = 0 := by
    apply count_map_zero
    intro a ha hc
    rw [← hc] at h2
    simp [eventKind] at h2
  by_cases hp : fs.all (fun f => b.prepOk f d) = true
  · by_cases hc : b.cancel checks = true
    · rw [datasetRun_trace_cancel b fs d n checks hp hc,
        if_neg (fun hcond => hcond.2 hc)]
      simp only [List.count_append, hpz, huz, Nat.add_zero]
    · rw [datasetRun_trace_ok b fs d n checks hp hc, if_pos ⟨hp, hc⟩]
      simp only [List.count_append, hpz, huz, Nat.zero_add, Nat.add_zero]
  · rw [datasetRun_trace_fail b fs d n checks hp,
      if_neg (fun hcond => hp hcond.1)]
    simp only [List.count_append, hpz, hfz, Nat.add_zero]

end OrchestratorRun2

section OrchestratorRun3

variable {F DS : Type} [DecidableEq F] [DecidableEq DS]

/-- The per-(framework, dataset, iteration) benchmark bookkeeping of a trace:
as many `cleanupTraining` as `train` calls, at most one `train`, at most one
`rateIntents` per validation-entry index, and a fully successful benchmark
rates every validation entry exactly once. -/
def IterConj (b : Behavior F DS) (tr : List (Event F DS)) (f2 : F) (d2 : DS)
    (i2 : ℕ) : Prop :=
  (tr.count (Event.cleanup f2 d2 i2) = tr.count (Event.train f2 d2 i2)) ∧
  tr.count (Event.train f2 d2 i2) ≤ 1 ∧
  (∀ j, tr.count (Event.rate f2 d2 i2 j) ≤ 1) ∧
  (tr.count (Event.train f2 d2 i2) = 1 → benchOk b f2 d2 i2 = true →
    ∀ j, j < b.valN d2 i2 → tr.count (Event.rate f2 d2 i2 j) = 1)

theorem IterConj_nil (b : Behavior F DS) (f2 : F) (d2 : DS) (i2 : ℕ) :
    IterConj b ([] : List (Event F DS)) f2 d2 i2 := by
  refine ⟨rfl, Nat.zero_le 1, fun j => Nat.zero_le 1, ?_⟩
  intro h1 hok j hj
  exact absurd h1 (by simp)

theorem IterConj_append_left (b : Behavior F DS)
    (tr1 tr2 : List (Event F DS)) (f2 : F) (d2 : DS) (i2 : ℕ)
    (h2 : ∀ e : Event F DS, eventDS e = some d2 → tr2.count e = 0)
    (h : IterConj b tr1 f2 d2 i2) : IterConj b (tr1 ++ tr2) f2 d2 i2 := by
  obtain ⟨h1, hle, hrle, himp⟩ := h
  have htr := h2 (Event.train f2 d2 i2) rfl
  have hcl := h2 (Event.cleanup f2 d2 i2) rfl
  have hrt := fun j => h2 (Event.rate f2 d2 i2 j) rfl
  refine ⟨?_, ?_, ?_, ?_⟩
  · rw [List.count_append, List.count_append, htr, hcl, Nat.add_zero,
      Nat.add_zero]
    exact h1
  · rw [List.count_append, htr, Nat.add_zero]
    exact hle
  · intro j
    rw [List.count_append, hrt j, Nat.add_zero]
    exact hrle j
  · intro he hok j hj
    rw [List.count_append, htr, Nat.add_zero] at he
    rw [List.count_append, hrt j, Nat.add_zero]
    exact himp he hok j hj

theorem IterConj_append_right (b : Behavior F DS)
    (tr1 tr2 : List (Event F DS)) (f2 : F) (d2 : DS) (i2 : ℕ)
    (h1z : ∀ e : Event F DS, eventDS e = some d2 → tr1.count e = 0)
    (h : IterConj b tr2 f2 d2 i2) : IterConj b (tr1 ++ tr2) f2 d2 i2 := by
  obtain ⟨h1, hle, hrle, himp⟩ := h
  have htr := h1z (Event.train f2 d2 i2) rfl
  have hcl := h1z (Event.cleanup f2 d2 i2) rfl
  have hrt := fun j => h1z (Event.rate f2 d2 i2 j) rfl
  refine ⟨?_, ?_, ?_, ?_⟩
  · rw [List.count_append, List.count_append, htr, hcl, Nat.zero_add,
      Nat.zero_add]
    exact h1
  · rw [List.count_append, htr, Nat.zero_add]
    exact hle
  · intro j
    rw [List.count_append, hrt j, Nat.zero_add]
    exact hrle j
  · intro he hok j hj
    rw [List.count_append, htr, Nat.zero_add] at he
    rw [List.count_append, hrt j, Nat.zero_add]
    exact himp he hok j hj

theorem datasetRun_conj (b : Behavior F DS) (fs : List F) (d : DS)
    (hn : fs.Nodup) (n checks : ℕ) (f2 : F) (d2 : DS) (i2 : ℕ) :
    IterConj b (datasetRun b fs d n checks).1 f2 d2 i2 := by
  have htr := datasetRun_count_iter b fs d n checks (Event.train f2 d2 i2)
    (by simp [eventKind]) (by simp [eventKind])
  have hcl := datasetRun_count_iter b fs d n checks (Event.cleanup f2 d2 i2)
    (by simp [eventKind]) (by simp [eventKind])
  have hrt : ∀ j, (datasetRun b fs d n checks).1.count
      (Event.rate f2 d2 i2 j)
      = if fs.all (fun f => b.prepOk f d) = true
          ∧ ¬(b.cancel checks = true)
        then (iterLoop b fs d n 0 (checks + 1)).1.count
          (Event.rate f2 d2 i2 j)
        else 0 :=
    fun j => datasetRun_count_iter b fs d n checks (Event.rate f2 d2 i2 j)
      (by simp [eventKind]) (by simp [eventKind])
  by_cases hcond : fs.all (fun f => b.prepOk f d) = true
      ∧ ¬(b.cancel checks = true)
  · simp only [IterConj, htr, hcl, hrt, if_pos hcond]
    exact iterLoop_counts b fs d hn n 0 (checks + 1) f2 d2 i2
  · simp only [IterConj]
    refine ⟨?_, ?_, fun j => ?_, ?_⟩
    · rw [hcl, htr, if_neg hcond, if_neg hcond]
    · rw [htr, if_neg hcond]
      exact Nat.zero_le 1
    · rw [hrt j, if_neg hcond]
      exact Nat.zero_le 1
    · intro h1 hok j hj
      rw [htr, if_neg hcond] at h1
      exact absurd h1 (by simp)

end OrchestratorRun3

section OrchestratorRun4

variable {F DS : Type} [DecidableEq F] [DecidableEq DS]

theorem runDatasets_trace_ok (b : Behavior F DS) (fs : List F) (n : ℕ)
    (d : DS) (rest : List DS) (checks : ℕ)
    (hr : (datasetRun b fs d n checks).2.1 = true) :
    (runDatasets b fs n (d :: rest) checks).1
      = (datasetRun b fs d n checks).1
        ++ (runDatasets b fs n rest (datasetRun b fs d n checks).2.2).1 := by
  simp only [runDatasets, if_pos hr]

theorem runDatasets_trace_fail (b : Behavior F DS) (fs : List F) (n : ℕ)
    (d : DS) (rest : List DS) (checks : ℕ)
    (hr : ¬((datasetRun b fs d n checks).2.1 = true)) :
    (runDatasets b fs n (d :: rest) checks).1
      = (datasetRun b fs d n checks).1 := by
  simp only [runDatasets, if_neg hr]

theorem runDatasets_flag_ok (b : Behavior F DS) (fs : List F) (n : ℕ)
    (d : DS) (rest : List DS) (checks : ℕ)
    (hr : (datasetRun b fs d n checks).2.1 = true) :
    (runDatasets b fs n (d :: rest) checks).2.1
      = (runDatasets b fs n rest (datasetRun b fs d n checks).2.2).2.1 := by
  simp only [runDatasets, if_pos hr]

theorem runDatasets_flag_fail (b : Behavior F DS) (fs : List F) (n : ℕ)
    (d : DS) (rest : List DS) (checks : ℕ)
    (hr : ¬((datasetRun b fs d n checks).2.1 = true)) :
    (runDatasets b fs n (d :: rest) checks).2.1 = false := by
  simp only [runDatasets, if_neg hr]

theorem processedList_step_ok (b : Behavior F DS) (fs : List F) (n : ℕ)
    (d : DS) (rest : List DS) (checks : ℕ)
    (hr : (datasetRun b fs d n checks).2.1 = true) :
    processedList b fs n (d :: rest) checks
      = d :: processedList b fs n rest (datasetRun b fs d n checks).2.2 := by
  simp only [processedList, if_pos hr]

theorem processedList_step_fail (b : Behavior F DS) (fs : List F) (n : ℕ)
    (d : DS) (rest : List DS) (checks : ℕ)
    (hr : ¬((datasetRun b fs d n checks).2.1 = true)) :
    processedList b fs n (d :: rest) checks = [d] := by
  simp only [processedList, if_neg hr]

theorem processedList_subset (b : Behavior F DS) (fs : List F) (n : ℕ) :
    ∀ (dss : List DS) (checks : ℕ),
      ∀ d2 ∈ processedList b fs n dss checks, d2 ∈ dss := by
  intro dss
  induction dss with
  | nil => intro checks d2 h; cases h
  | cons d rest ih =>
    intro checks d2 h
    by_cases hr : (datasetRun b fs d n checks).2.1 = true
    · rw [processedList_step_ok b fs n d rest checks hr] at h
      rcases List.mem_cons.mp h with h | h
      · exact h ▸ List.mem_cons_self d rest
      · exact List.mem_cons_of_mem d (ih _ d2 h)
    · rw [processedList_step_fail b fs n d rest checks hr] at h
      rw [List.mem_singleton] at h
      exact h ▸ List.mem_cons_self d rest

theorem runDatasets_ok_processed (b : Behavior F DS) (fs : List F) (n : ℕ) :
    ∀ (dss : List DS) (checks : ℕ),
      (runDatasets b fs n dss checks).2.1 = true →
      processedList b fs n dss checks = dss := by
  intro dss
  induction dss with
  | nil => intro checks _; rfl
  | cons d rest ih =>
    intro checks hok
    by_cases hr : (datasetRun b fs d n checks).2.1 = true
    · rw [runDatasets_flag_ok b fs n d rest checks hr] at hok
      rw [processedList_step_ok b fs n d rest checks hr, ih _ hok]
    · rw [runDatasets_flag_fail b fs n d rest checks hr] at hok
      cases hok

theorem runDatasets_shape (b : Behavior F DS) (fs : List F) (n : ℕ) :
    ∀ (dss : List DS) (checks : ℕ),
      ∀ e ∈ (runDatasets b fs n dss checks).1,
        ∃ d3 ∈ dss, eventDS e = some d3 := by
  intro dss
  induction dss with
  | nil => intro checks e he; cases he
  | cons d rest ih =>
    intro checks e he
    by_cases hr : (datasetRun b fs d n checks).2.1 = true
    · rw [runDatasets_trace_ok b fs n d rest checks hr] at he
      rcases List.mem_append.mp he with hm | hm
      · exact ⟨d, List.mem_cons_self d rest,
          datasetRun_shape b fs d n checks e hm⟩
      · obtain ⟨d3, hd3, he3⟩ := ih _ e hm
        exact ⟨d3, List.mem_cons_of_mem d hd3, he3⟩
    · rw [runDatasets_trace_fail b fs n d rest checks hr] at he
      exact ⟨d, List.mem_cons_self d rest,
        datasetRun_shape b fs d n checks e he⟩

end OrchestratorRun4

section OrchestratorRun5

variable {F DS : Type} [DecidableEq F] [DecidableEq DS]

theorem runDatasets_count_prepare (b : Behavior F DS) (fs : List F) (n : ℕ) :
    ∀ (dss : List DS) (checks : ℕ), dss.Nodup → ∀ (f2 : F) (d2 : DS),
      (runDatasets b fs n dss checks).1.count (Event.prepare f2 d2)
        = if d2 ∈ processedList b fs n dss checks then fs.count f2
          else 0 := by
  intro dss
  induction dss with
  | nil =>
    intro checks hnd f2 d2
    simp [runDatasets, processedList]
  | cons d rest ih =>
    intro checks hnd f2 d2
    obtain ⟨hd, hnd2⟩ := List.nodup_cons.mp hnd
    by_cases hr : (datasetRun b fs d n checks).2.1 = true
    · rw [runDatasets_trace_ok b fs n d rest checks hr,
        processedList_step_ok b fs n d rest checks hr,
        List.count_append, datasetRun_count_prepare b fs d n checks f2 d2,
        ih _ hnd2 f2 d2]
      by_cases hdd : d2 = d
      · subst hdd
        have hnp : d2 ∉ processedList b fs n rest
            (datasetRun b fs d2 n checks).2.2 :=
          fun hmem => hd (processedList_subset b fs n rest _ d2 hmem)
        rw [if_pos rfl, if_neg hnp, if_pos (List.mem_cons_self d2 _),
          Nat.add_zero]
      · rw [if_neg hdd, Nat.zero_add]
        by_cases hmem : d2 ∈ processedList b fs n rest
            (datasetRun b fs d n checks).2.2
        · rw [if_pos hmem, if_pos (List.mem_cons_of_mem d hmem)]
        · rw [if_neg hmem,
            if_neg (fun hc => (List.mem_cons.mp hc).elim hdd hmem)]
    · rw [runDatasets_trace_fail b fs n d rest checks hr,
        processedList_step_fail b fs n d rest checks hr,
        datasetRun_count_prepare b fs d n checks f2 d2]
      simp [List.mem_singleton]

theorem runDatasets_count_unprepare (b : Behavior F DS) (fs : List F)
    (n : ℕ) : ∀ (dss : List DS) (checks : ℕ), dss.Nodup →
      ∀ (f2 : F) (d2 : DS), d2 ∈ processedList b fs n dss checks →
      fs.all (fun f => b.prepOk f d2) = true →
      (runDatasets b fs n dss checks).1.count (Event.unprepare f2 d2)
        = fs.count f2 := by
  intro dss
  induction dss with
  | nil =>
    intro checks hnd f2 d2 hmem
    rw [show processedList b fs n [] checks = [] from rfl] at hmem
    cases hmem
  | cons d rest ih =>
    intro checks hnd f2 d2 hmem hall
    obtain ⟨hd, hnd2⟩ := List.nodup_cons.mp hnd
    by_cases hr : (datasetRun b fs d n checks).2.1 = true
    · rw [processedList_step_ok b fs n d rest checks hr] at hmem
      rw [runDatasets_trace_ok b fs n d rest checks hr, List.count_append]
      by_cases hdd : d2 = d
      · subst hdd
        rw [datasetRun_count_unprepare b fs d2 n checks f2 d2 hall,
          if_pos rfl]
        have h0 : (runDatasets b fs n rest
            (datasetRun b fs d2 n checks).2.2).1.count
            (Event.unprepare f2 d2) = 0 := by
          apply count_zero_of_shape
          intro hc
          obtain ⟨d3, hd3, he3⟩ := runDatasets_shape b fs n rest
            (datasetRun b fs d2 n checks).2.2 (Event.unprepare f2 d2) hc
          injection he3 with he4
          exact hd (he4 ▸ hd3)
        rw [h0, Nat.add_zero]
      · have hmem2 : d2 ∈ processedList b fs n rest
            (datasetRun b fs d n checks).2.2 :=
          (List.mem_cons.mp hmem).resolve_left hdd
        have h0 : (datasetRun b fs d n checks).1.count
            (Event.unprepare f2 d2) = 0 := by
          apply count_zero_of_shape
          intro hc
          have h2 := datasetRun_shape b fs d n checks _ hc
          injection h2 with h3
          exact hdd h3
        rw [h0, Nat.zero_add]
        exact ih _ hnd2 f2 d2 hmem2 hall
    · rw [processedList_step_fail b fs n d rest checks hr,
        List.mem_singleton] at hmem
      subst hmem
      rw [runDatasets_trace_fail b fs n d2 rest checks hr,
        datasetRun_count_unprepare b fs d2 n checks f2 d2 hall, if_pos rfl]

theorem runDatasets_conj (b : Behavior F DS) (fs : List F) (n : ℕ)
    (hn : fs.Nodup) : ∀ (dss : List DS) (checks : ℕ), dss.Nodup →
      ∀ (f2 : F) (d2 : DS) (i2 : ℕ),
      IterConj b (runDatasets b fs n dss checks).1 f2 d2 i2 := by
  intro dss
  induction dss with
  | nil =>
    intro checks hnd f2 d2 i2
    rw [show (runDatasets b fs n [] checks).1 = [] from rfl]
    exact IterConj_nil b f2 d2 i2
  | cons d rest ih =>
    intro checks hnd f2 d2 i2
    obtain ⟨hd, hnd2⟩ := List.nodup_cons.mp hnd
    by_cases hr : (datasetRun b fs d n checks).2.1 = true
    · rw [runDatasets_trace_ok b fs n d rest checks hr]
      by_cases hdd : d2 = d
      · subst hdd
        refine IterConj_append_left b _ _ f2 d2 i2 ?_
          (datasetRun_conj b fs d2 hn n checks f2 d2 i2)
        intro e he
        apply count_zero_of_shape
        intro hc
        obtain ⟨d3, hd3, he3⟩ := runDatasets_shape b fs n rest
          (datasetRun b fs d2 n checks).2.2 e hc
        rw [he] at he3
        injection he3 with he4
        exact hd (he4 ▸ hd3)
      · refine IterConj_append_right b _ _ f2 d2 i2 ?_
          (ih _ hnd2 f2 d2 i2)
        intro e he
        apply count_zero_of_shape
        intro hc
        have h2 := datasetRun_shape b fs d n checks e hc
        rw [he] at h2
        injection h2 with h3
        exact hdd h3
    · rw [runDatasets_trace_fail b fs n d rest checks hr]
      exact datasetRun_conj b fs d hn n checks f2 d2 i2

end OrchestratorRun5

section OrchestratorClaim

variable {F DS : Type} [DecidableEq F] [DecidableEq DS]

theorem benchRun_trace (b : Behavior F DS) (fs : List F) (dss : List DS)
    (n : ℕ) : (benchRun b fs dss n).1
      = (runDatasets b fs n dss 0).1 ++ fs.map Event.destruct := rfl

theorem benchRun_count_destruct (b : Behavior F DS) (fs : List F)
    (dss : List DS) (n : ℕ) (hf : fs.Nodup) (f2 : F) (hf2 : f2 ∈ fs) :
    (benchRun b fs dss n).1.count (Event.destruct f2) = 1 := by
  rw [benchRun_trace, List.count_append]
  have h0 : (runDatasets b fs n dss 0).1.count (Event.destruct f2) = 0 := by
    apply count_zero_of_shape
    intro hc
    obtain ⟨d3, -, he3⟩ := runDatasets_shape b fs n dss 0 _ hc
    exact Option.noConfusion he3
  rw [h0, Nat.zero_add, count_map_destruct,
    List.count_eq_one_of_mem hf hf2]

theorem destructMap_count_ds_zero (fs : List F) (e : Event F DS) (d2 : DS)
    (he : eventDS e = some d2) :
    (fs.map (Event.destruct : F → Event F DS)).count e = 0 := by
  apply count_map_zero
  intro a ha hc
  rw [← hc] at he
  exact Option.noConfusion he

end OrchestratorClaim

section OrchestratorExact

variable {F DS : Type} [DecidableEq F] [DecidableEq DS]

/-- Exact per-framework bookkeeping of one performed iteration `(d2, i2)` in
a trace: every framework trains exactly once and cleans up exactly once, and
every framework whose benchmark succeeds rates every validation entry
exactly once. -/
def IterExact (b : Behavior F DS) (tr : List (Event F DS)) (fs : List F)
    (d2 : DS) (i2 : ℕ) : Prop :=
  ∀ f2 ∈ fs,
    tr.count (Event.train f2 d2 i2) = 1 ∧
    tr.count (Event.cleanup f2 d2 i2) = 1 ∧
    (benchOk b f2 d2 i2 = true → ∀ j, j < b.valN d2 i2 →
      tr.count (Event.rate f2 d2 i2 j) = 1)

theorem IterExact_append_left (b : Behavior F DS)
    (tr1 tr2 : List (Event F DS)) (fs : List F) (d2 : DS) (i2 : ℕ)
    (hz : ∀ e : Event F DS, eventDS e = some d2 → eventIter e = some i2 →
      eventKind e ≤ 4 → tr2.count e = 0)
    (h : IterExact b tr1 fs d2 i2) : IterExact b (tr1 ++ tr2) fs d2 i2 := by
  intro f2 hf2
  obtain ⟨h1, h2, h3⟩ := h f2 hf2
  refine ⟨?_, ?_, ?_⟩
  · rw [List.count_append, hz (Event.train f2 d2 i2) rfl rfl (by simp [eventKind]),
      Nat.add_zero]
    exact h1
  · rw [List.count_append, hz (Event.cleanup f2 d2 i2) rfl rfl (by simp [eventKind]),
      Nat.add_zero]
    exact h2
  · intro hok j hj
    rw [List.count_append, hz (Event.rate f2 d2 i2 j) rfl rfl (by simp [eventKind]),
      Nat.add_zero]
    exact h3 hok j hj

theorem IterExact_append_right (b : Behavior F DS)
    (tr1 tr2 : List (Event F DS)) (fs : List F) (d2 : DS) (i2 : ℕ)
    (hz : ∀ e : Event F DS, eventDS e = some d2 → eventIter e = some i2 →
      eventKind e ≤ 4 → tr1.count e = 0)
    (h : IterExact b tr2 fs d2 i2) : IterExact b (tr1 ++ tr2) fs d2 i2 := by
  intro f2 hf2
  obtain ⟨h1, h2, h3⟩ := h f2 hf2
  refine ⟨?_, ?_, ?_⟩
  · rw [List.count_append, hz (Event.train f2 d2 i2) rfl rfl (by simp [eventKind]),
      Nat.zero_add]
    exact h1
  · rw [List.count_append, hz (Event.cleanup f2 d2 i2) rfl rfl (by simp [eventKind]),
      Nat.zero_add]
    exact h2
  · intro hok j hj
    rw [List.count_append, hz (Event.rate f2 d2 i2 j) rfl rfl (by simp [eventKind]),
      Nat.zero_add]
    exact h3 hok j hj

theorem seg_exact (b : Behavior F DS) (fs : List F) (d : DS) (i : ℕ)
    (hn : fs.Nodup) (d2 : DS) (i2 : ℕ) (hd2 : d2 = d) (hi2 : i2 = i) :
    IterExact b (fs.flatMap (fun f => benchEvents b f d i)) fs d2 i2 := by
  intro f2 hf2
  refine ⟨?_, ?_, ?_⟩
  · rw [seg_count_train, if_pos ⟨hd2, hi2⟩, List.count_eq_one_of_mem hn hf2]
  · rw [seg_count_cleanup, if_pos ⟨hd2, hi2⟩,
      List.count_eq_one_of_mem hn hf2]
  · intro hok j hj
    rw [seg_count_rate, List.count_eq_one_of_mem hn hf2, Nat.one_mul]
    subst hd2
    subst hi2
    exact benchEvents_count_rate_ok b f2 d2 i2 j hok hj

theorem segR_exact (b : Behavior F DS) (fs : List F) (d : DS) (i : ℕ)
    (hn : fs.Nodup) (d2 : DS) (i2 : ℕ) (hd2 : d2 = d) (hi2 : i2 = i) :
    IterExact b ((fs.flatMap (fun f => benchEvents b f d i))
      ++ [Event.reshuffle d i]) fs d2 i2 := by
  refine IterExact_append_left b _ _ fs d2 i2 ?_
    (seg_exact b fs d i hn d2 i2 hd2 hi2)
  intro e he1 he2 hk
  apply count_zero_of_shape
  intro hc
  rw [List.mem_singleton] at hc
  rw [hc] at hk
  simp [eventKind] at hk

theorem iterLoop_exact (b : Behavior F DS) (fs : List F) (d : DS)
    (hn : fs.Nodup) : ∀ (m i checks : ℕ) (f3 : F) (d2 : DS) (i2 : ℕ),
    f3 ∈ fs →
    1 ≤ (iterLoop b fs d m i checks).1.count (Event.train f3 d2 i2) →
    IterExact b (iterLoop b fs d m i checks).1 fs d2 i2 := by
  intro m
  induction m with
  | zero =>
    intro i checks f3 d2 i2 hf3 hge
    rw [show (iterLoop b fs d 0 i checks).1 = [] from rfl,
      List.count_nil] at hge
    exact absurd hge (by omega)
  | succ m ih =>
    intro i checks f3 d2 i2 hf3 hge
    by_cases hb : fs.all (fun f => benchOk b f d i) = true
    · by_cases hrs : b.reshuffleOk d i = true
      · by_cases hcc : b.cancel checks = true
        · rw [iterLoop_step_C b fs d m i checks hb hrs hcc] at hge ⊢
          rw [segR_count_train b fs d i f3 d2 i2] at hge
          by_cases hcond : d2 = d ∧ i2 = i
          · exact segR_exact b fs d i hn d2 i2 hcond.1 hcond.2
          · rw [if_neg hcond] at hge
            exact absurd hge (by omega)
        · rw [iterLoop_step_D b fs d m i checks hb hrs hcc] at hge ⊢
          by_cases hI : i2 = i
          · subst hI
            have ht0 : ∀ e : Event F DS, eventIter e = some i2 →
                (iterLoop b fs d m (i2+1) (checks+1)).1.count e = 0 :=
              fun e he => iterLoop_tail_zero b fs d m i2 (checks+1) e he
            rw [List.count_append, ht0 (Event.train f3 d2 i2) rfl,
              Nat.add_zero, segR_count_train b fs d i2 f3 d2 i2] at hge
            by_cases hcond : d2 = d ∧ i2 = i2
            · exact IterExact_append_left b _ _ fs d2 i2
                (fun e _ he2 _ => ht0 e he2)
                (segR_exact b fs d i2 hn d2 i2 hcond.1 rfl)
            · rw [if_neg hcond] at hge
              exact absurd hge (by omega)
          · have hz1 : ∀ e : Event F DS, eventDS e = some d2 →
                eventIter e = some i2 →
                eventKind e ≤ 4 →
                ((fs.flatMap (fun f => benchEvents b f d i))
                  ++ [Event.reshuffle d i]).count e = 0 := by
              intro e he1 he2 hk
              apply count_zero_of_shape
              intro hc
              rcases List.mem_append.mp hc with hm | hm
              · obtain ⟨f, -, hbe⟩ := List.mem_flatMap.mp hm
                obtain ⟨-, h2, -, -⟩ := benchEvents_shape b f d i e hbe
                rw [he2] at h2
                injection h2 with h3
                exact hI h3
              · rw [List.mem_singleton] at hm
                rw [hm] at he2
                injection he2 with h3
                exact hI h3.symm
            rw [List.count_append,
              hz1 (Event.train f3 d2 i2) rfl rfl (by simp [eventKind]),
              Nat.zero_add] at hge
            exact IterExact_append_right b _ _ fs d2 i2 hz1
              (ih (i+1) (checks+1) f3 d2 i2 hf3 hge)
      · rw [iterLoop_step_B b fs d m i checks hb hrs] at hge ⊢
        rw [segR_count_train b fs d i f3 d2 i2] at hge
        by_cases hcond : d2 = d ∧ i2 = i
        · exact segR_exact b fs d i hn d2 i2 hcond.1 hcond.2
        · rw [if_neg hcond] at hge
          exact absurd hge (by omega)
    · rw [iterLoop_step_A b fs d m i checks hb] at hge ⊢
      rw [seg_count_train b fs d i f3 d2 i2] at hge
      by_cases hcond : d2 = d ∧ i2 = i
      · exact seg_exact b fs d i hn d2 i2 hcond.1 hcond.2
      · rw [if_neg hcond] at hge
        exact absurd hge (by omega)

end OrchestratorExact

section OrchestratorExact2

variable {F DS : Type} [DecidableEq F] [DecidableEq DS]

theorem datasetRun_exact (b : Behavior F DS) (fs : List F) (d : DS)
    (hn : fs.Nodup) (n checks : ℕ) (f3 : F) (d2 : DS) (i2 : ℕ)
    (hf3 : f3 ∈ fs)
    (hge : 1 ≤ (datasetRun b fs d n checks).1.count
      (Event.train f3 d2 i2)) :
    IterExact b (datasetRun b fs d n checks).1 fs d2 i2 := by
  have htr3 := datasetRun_count_iter b fs d n checks (Event.train f3 d2 i2)
    (by simp [eventKind]) (by simp [eventKind])
  by_cases hcond : fs.all (fun f => b.prepOk f d) = true
      ∧ ¬(b.cancel checks = true)
  · rw [htr3, if_pos hcond] at hge
    have hex := iterLoop_exact b fs d hn n 0 (checks + 1) f3 d2 i2 hf3 hge
    have hpz : ∀ e : Event F DS, eventDS e = some d2 →
        eventIter e = some i2 → eventKind e ≤ 4 →
        (fs.map (fun f => Event.prepare f d)).count e = 0 := by
      intro e he1 he2 hk
      apply count_map_zero
      intro a ha hc
      rw [← hc] at he2
      exact Option.noConfusion he2
    have huz : ∀ e : Event F DS, eventDS e = some d2 →
        eventIter e = some i2 → eventKind e ≤ 4 →
        (fs.map (fun f => Event.unprepare f d)).count e = 0 := by
      intro e he1 he2 hk
      apply count_map_zero
      intro a ha hc
      rw [← hc] at he2
      exact Option.noConfusion he2
    rw [datasetRun_trace_ok b fs d n checks hcond.1 hcond.2]
    exact IterExact_append_left b _ _ fs d2 i2 huz
      (IterExact_append_right b _ _ fs d2 i2 hpz hex)
  · rw [htr3, if_neg hcond] at hge
    exact absurd hge (by omega)

theorem runDatasets_exact (b : Behavior F DS) (fs : List F) (n : ℕ)
    (hn : fs.Nodup) : ∀ (dss : List DS) (checks : ℕ), dss.Nodup →
    ∀ (f3 : F) (d2 : DS) (i2 : ℕ), f3 ∈ fs →
    1 ≤ (runDatasets b fs n dss checks).1.count (Event.train f3 d2 i2) →
    IterExact b (runDatasets b fs n dss checks).1 fs d2 i2 := by
  intro dss
  induction dss with
  | nil =>
    intro checks hnd f3 d2 i2 hf3 hge
    rw [show (runDatasets b fs n [] checks).1 = [] from rfl,
      List.count_nil] at hge
    exact absurd hge (by omega)
  | cons d rest ih =>
    intro checks hnd f3 d2 i2 hf3 hge
    obtain ⟨hd, hnd2⟩ := List.nodup_cons.mp hnd
    by_cases hr : (datasetRun b fs d n checks).2.1 = true
    · rw [runDatasets_trace_ok b fs n d rest checks hr] at hge ⊢
      by_cases hdd : d2 = d
      · have htlz : ∀ e : Event F DS, eventDS e = some d2 →
            eventIter e = some i2 → eventKind e ≤ 4 →
            (runDatasets b fs n rest
              (datasetRun b fs d n checks).2.2).1.count e = 0 := by
          intro e he1 he2 hk
          apply count_zero_of_shape
          intro hc
          obtain ⟨d3, hd3, he3⟩ := runDatasets_shape b fs n rest
            (datasetRun b fs d n checks).2.2 e hc
          rw [he1] at he3
          injection he3 with h3
          rw [hdd] at h3
          exact hd (h3 ▸ hd3)
        rw [List.count_append,
          htlz (Event.train f3 d2 i2) rfl rfl (by simp [eventKind]),
          Nat.add_zero] at hge
        exact IterExact_append_left b _ _ fs d2 i2 htlz
          (datasetRun_exact b fs d hn n checks f3 d2 i2 hf3 hge)
      · have hhdz : ∀ e : Event F DS, eventDS e = some d2 →
            eventIter e = some i2 → eventKind e ≤ 4 →
            (datasetRun b fs d n checks).1.count e = 0 := by
          intro e he1 he2 hk
          apply count_zero_of_shape
          intro hc
          have h2 := datasetRun_shape b fs d n checks e hc
          rw [he1] at h2
          injection h2 with h3
          exact hdd h3
        rw [List.count_append,
          hhdz (Event.train f3 d2 i2) rfl rfl (by simp [eventKind]),
          Nat.zero_add] at hge
        exact IterExact_append_right b _ _ fs d2 i2 hhdz
          (ih _ hnd2 f3 d2 i2 hf3 hge)
    · rw [runDatasets_trace_fail b fs n d rest checks hr] at hge ⊢
      exact datasetRun_exact b fs d hn n checks f3 d2 i2 hf3 hge

theorem benchRun_exact (b : Behavior F DS) (fs : List F) (dss : List DS)
    (n : ℕ) (hf : fs.Nodup) (hd : dss.Nodup) (f3 : F) (d2 : DS) (i2 : ℕ)
    (hf3 : f3 ∈ fs)
    (hge : 1 ≤ (benchRun b fs dss n).1.count (Event.train f3 d2 i2)) :
    IterExact b (benchRun b fs dss n).1 fs d2 i2 := by
  have hdz : ∀ e : Event F DS, eventDS e = some d2 →
      eventIter e = some i2 → eventKind e ≤ 4 →
      (fs.map (Event.destruct : F → Event F DS)).count e = 0 :=
    fun e he1 _ _ => destructMap_count_ds_zero fs e d2 he1
  rw [benchRun_trace, List.count_append,
    hdz (Event.train f3 d2 i2) rfl rfl (by simp [eventKind]),
    Nat.add_zero] at hge
  rw [benchRun_trace]
  exact IterExact_append_left b _ _ fs d2 i2 hdz
    (runDatasets_exact b fs n hf dss 0 hd f3 d2 i2 hf3 hge)

end OrchestratorExact2

section C3

variable {F DS : Type} [DecidableEq F] [DecidableEq DS]

/-- **C3** (amended): lifecycle bookkeeping of `NLUBenchmarker.run` over the
whole trace, for distinct frameworks and distinct datasets. `destruct` runs
exactly once per framework; `prepareDataSet` runs exactly once per framework
for every dataset the run starts processing, and never for a dataset it does
not reach (the original claim's "once per framework per dataset" holds only
for the processed prefix); for every processed dataset whose preparation
succeeded for all frameworks, `unprepareDataSet` runs exactly once per
framework; per framework, dataset and iteration the trace has as many
`cleanupTraining` as `train` calls, at most one `train`, at most one
`rateIntents` per validation entry, and a fully successful benchmark rates
every validation entry exactly once; every iteration that is performed at
all (witnessed by any framework training in it) performs exactly one `train`
and exactly one `cleanupTraining` for every framework, and within it every
framework whose benchmark succeeds — in a completed iteration, every
framework — performs exactly one `rateIntents` per validation entry; and a
successful run processes every dataset (only this direction holds: a failure
on the last dataset processes all datasets yet the run raises). -/
theorem c3_amended (b : Behavior F DS) (fs : List F) (dss : List DS) (n : ℕ)
    (hf : fs.Nodup) (hd : dss.Nodup) :
    (∀ f2 ∈ fs, (benchRun b fs dss n).1.count (Event.destruct f2) = 1) ∧
    (∀ f2 ∈ fs, ∀ d2 ∈ processedList b fs n dss 0,
      (benchRun b fs dss n).1.count (Event.prepare f2 d2) = 1) ∧
    (∀ (f2 : F) (d2 : DS), d2 ∉ processedList b fs n dss 0 →
      (benchRun b fs dss n).1.count (Event.prepare f2 d2) = 0) ∧
    (∀ f2 ∈ fs, ∀ d2 ∈ processedList b fs n dss 0,
      fs.all (fun f => b.prepOk f d2) = true →
      (benchRun b fs dss n).1.count (Event.unprepare f2 d2) = 1) ∧
    (∀ (f2 : F) (d2 : DS) (i2 : ℕ),
      IterConj b (benchRun b fs dss n).1 f2 d2 i2) ∧
    (∀ (f3 : F) (d2 : DS) (i2 : ℕ), f3 ∈ fs →
      1 ≤ (benchRun b fs dss n).1.count (Event.train f3 d2 i2) →
      IterExact b (benchRun b fs dss n).1 fs d2 i2) ∧
    ((benchRun b fs dss n).2 = true → processedList b fs n dss 0 = dss) := by
  refine ⟨?_, ?_, ?_, ?_, ?_, ?_, ?_⟩
  · intro f2 hf2
    exact benchRun_count_destruct b fs dss n hf f2 hf2
  · intro f2 hf2 d2 hd2
    rw [benchRun_trace, List.count_append,
      count_map_zero _ _ _ (fun a ha hc => by cases hc), Nat.add_zero,
      runDatasets_count_prepare b fs n dss 0 hd f2 d2, if_pos hd2,
      List.count_eq_one_of_mem hf hf2]
  · intro f2 d2 hnd2
    rw [benchRun_trace, List.count_append,
      count_map_zero _ _ _ (fun a ha hc => by cases hc), Nat.add_zero,
      runDatasets_count_prepare b fs n dss 0 hd f2 d2, if_neg hnd2]
  · intro f2 hf2 d2 hd2 hall
    rw [benchRun_trace, List.count_append,
      count_map_zero _ _ _ (fun a ha hc => by cases hc), Nat.add_zero,
      runDatasets_count_unprepare b fs n dss 0 hd f2 d2 hd2 hall,
      List.count_eq_one_of_mem hf hf2]
  · intro f2 d2 i2
    rw [benchRun_trace]
    exact IterConj_append_left b _ _ f2 d2 i2
      (fun e he => destructMap_count_ds_zero fs e d2 he)
      (runDatasets_conj b fs n hf dss 0 hd f2 d2 i2)
  · intro f3 d2 i2 hf3 hge
    exact benchRun_exact b fs dss n hf hd f3 d2 i2 hf3 hge
  · intro hok
    have h2 : ((runDatasets b fs n dss 0).2.1
        && fs.all (fun f => b.destructOk f)) = true := hok
    rw [Bool.and_eq_true] at h2
    exact runDatasets_ok_processed b fs n dss 0 h2.1

end C3

section C3Concrete

/-- A concrete benchmark run over `ℕ`-labelled frameworks and datasets:
every lifecycle call succeeds except `train`, which always fails, so the
first dataset's first iteration raises and the run aborts there. -/
def c3B : Behavior ℕ ℕ where
  prepOk := fun _ _ => true
  trainOk := fun _ _ _ => false
  rateOk := fun _ _ _ _ => true
  cleanOk := fun _ _ _ => true
  unprepOk := fun _ _ => true
  destructOk := fun _ => true
  reshuffleOk := fun _ _ => true
  valN := fun _ _ => 1
  cancel := fun _ => false

/-- **C3** (counterexample): the claim says `prepareDataSet` is invoked
exactly once per framework per dataset, whether the run returns normally or
raises. With frameworks `[0]`, datasets `[0, 1]` and one iteration, a
training failure on dataset `0` makes the run raise before reaching dataset
`1`, which is therefore never prepared: the count of `prepare 0 1` in the
full trace is `0`, not `1`. -/
theorem c3_counterexample :
    (0 : ℕ) ∈ ([0] : List ℕ) ∧ (1 : ℕ) ∈ ([0, 1] : List ℕ) ∧
    (benchRun c3B [0] [0, 1] 1).1.count (Event.prepare 0 1) = 0 := by
  decide

/-- Closed instantiation of `c3_amended` at the concrete run `c3B` with one
framework and two datasets. -/
theorem c3_amended_witness :
    ([0] : List ℕ).Nodup ∧ ([0, 1] : List ℕ).Nodup ∧
    ((∀ f2 ∈ ([0] : List ℕ),
        (benchRun c3B [0] [0, 1] 1).1.count (Event.destruct f2) = 1) ∧
     (∀ f2 ∈ ([0] : List ℕ), ∀ d2 ∈ processedList c3B [0] 1 [0, 1] 0,
        (benchRun c3B [0] [0, 1] 1).1.count (Event.prepare f2 d2) = 1) ∧
     (∀ (f2 d2 : ℕ), d2 ∉ processedList c3B [0] 1 [0, 1] 0 →
        (benchRun c3B [0] [0, 1] 1).1.count (Event.prepare f2 d2) = 0) ∧
     (∀ f2 ∈ ([0] : List ℕ), ∀ d2 ∈ processedList c3B [0] 1 [0, 1] 0,
        ([0] : List ℕ).all (fun f => c3B.prepOk f d2) = true →
        (benchRun c3B [0] [0, 1] 1).1.count (Event.unprepare f2 d2) = 1) ∧
     (∀ (f2 d2 i2 : ℕ),
        IterConj c3B (benchRun c3B [0] [0, 1] 1).1 f2 d2 i2) ∧
     (∀ (f3 d2 i2 : ℕ), f3 ∈ ([0] : List ℕ) →
        1 ≤ (benchRun c3B [0] [0, 1] 1).1.count (Event.train f3 d2 i2) →
        IterExact c3B (benchRun c3B [0] [0, 1] 1).1 [0] d2 i2) ∧
     ((benchRun c3B [0] [0, 1] 1).2 = true →
        processedList c3B [0] 1 [0, 1] 0 = [0, 1])) :=
  ⟨by decide, by decide,
    c3_amended c3B [0] [0, 1] 1 (by decide) (by decide)⟩

end C3Concrete
